import Mathlib

/-!
# radarmap: colour model, colour cleanup and calibration of `convert.cpp`

A shallow embedding of the colour model (`eqColor`, `isPaletteColor`), of the
per-pixel cleanup functions (`boundaryPoint`, `neibColor`, `isKeptBlack`,
`isBadRoadColor`, `replacementColor`), of the centre and scale detection
(`makeCumulative`, `detectCenter`) and of the two pixel sweeps of
`transformProjection` of `src/convert.cpp`.

Modelling conventions
* `Vec4b` is a pixel of four 8-bit unsigned channels (`Fin 256` each).  In the
  source the operands of `a[i]-b[i]` are promoted to `int`, so channel
  differences are taken in `Int`; the largest sum is `4 * 255`, far below the
  range of a 32-bit `int`, hence no reduction modulo `2^32` appears.
* `Image` is `cv::Mat_<Vec4b>`: `rows`, `cols` and the pixel field `px y x`.
  Only the values `px y x` with `0 ≤ y < rows` and `0 ≤ x < cols` are part of
  the raster; a read outside it is undefined in the source, so statements about
  functions that read `im(y,x)` unguarded carry an in-bounds hypothesis.
* The `for` loops with mutable locals are left folds over the indices in the
  order of the source loops, the locals being the fold state; an assignment to
  a cell of a raster or of a vector is an update of that cell.
* The `int` counters of `detectCenter` count pixels of one row or one column
  of the raster and cannot overflow; they and the product by 7 formed from the
  peak are integers.  The sums of `makeCumulative` are accumulated in 32-bit
  `int`: each addition is followed by the two's-complement wrap-around
  `wrap32`.
* `detectedScaling` is a `float`: the quotient is rounded to a 24-bit
  significand (`scaleOf`), and the value is kept as a rational number.
* Where the source has undefined behaviour (`*max_element` of an empty vector,
  `*deltas.begin()` of an empty map) the embedding returns `none`; the source
  has no error path there.
* `std::map<int,int>` is the list of its entries in increasing key order.
* The projection chain of `transformProjection` (an external library, in
  floating point) is a parameter of the resampling sweep: the function that
  gives each target pixel its source coordinates.
-/

namespace Radarmap

/-- Pixel `cv::Vec4b`: four 8-bit unsigned channels `a[0] .. a[3]`. -/
structure Vec4b where
  v0 : Fin 256
  v1 : Fin 256
  v2 : Fin 256
  v3 : Fin 256
deriving DecidableEq, Repr

/-- Raster `Image = cv::Mat_<Vec4b>`; `px y x` is `im(y,x)`. -/
structure Image where
  rows : Nat
  cols : Nat
  px : Int → Int → Vec4b

def backgroundOuter : Vec4b := ⟨164, 160, 160, 255⟩
def lineColor : Vec4b := ⟨115, 115, 115, 255⟩
def backgroundInner : Vec4b := ⟨208, 208, 208, 255⟩
def boundaryColor : Vec4b := ⟨128, 0, 0, 255⟩
def transparent : Vec4b := ⟨0, 0, 0, 0⟩
def black : Vec4b := ⟨0, 0, 0, 255⟩

def palette : List Vec4b :=
  [⟨0, 0, 95, 255⟩,
   ⟨0, 0, 255, 255⟩,
   ⟨0, 68, 136, 255⟩,
   ⟨0, 102, 204, 255⟩,
   ⟨0, 152, 0, 255⟩,
   ⟨90, 194, 0, 255⟩,
   ⟨95, 63, 63, 255⟩,
   ⟨116, 0, 0, 255⟩,
   ⟨127, 85, 255, 255⟩,
   ⟨127, 170, 255, 255⟩,
   ⟨128, 255, 255, 255⟩,
   ⟨147, 255, 70, 255⟩,
   ⟨177, 170, 156, 255⟩,
   ⟨199, 0, 199, 255⟩,
   ⟨255, 56, 1, 255⟩,
   ⟨255, 85, 255, 255⟩,
   ⟨255, 136, 62, 255⟩,
   ⟨255, 170, 255, 255⟩,
   ⟨255, 198, 162, 255⟩]

def badPaletteColor : Vec4b := ⟨0, 68, 136, 255⟩

def colorEps : Int := 2

def defaultLineDelta : Int := 120

/-- The `int` value `abs(a[i]-b[i])` of two channels after integer promotion. -/
def chanDiff (a b : Fin 256) : Int :=
  Int.natAbs ((a.val : Int) - (b.val : Int))

/-- Source `eqColor(a, b, eps)`: `diff < eps` for the sum of channel distances. -/
def eqColor (a b : Vec4b) (eps : Int := colorEps) : Bool :=
  let diff : Int := chanDiff a.v0 b.v0 + chanDiff a.v1 b.v1 + chanDiff a.v2 b.v2 + chanDiff a.v3 b.v3
  decide (diff < eps)

/-- The guard `cx>=0 && cx<im.cols && cy>=0 && cy<im.rows`. -/
def inBounds (im : Image) (cx cy : Int) : Bool :=
  decide (0 ≤ cx) && decide (cx < (im.cols : Int)) && decide (0 ≤ cy) && decide (cy < (im.rows : Int))

/-- Offsets of the loops `for (d=-2; d<=2; d++)`. -/
def offs5 : List Int := [-2, -1, 0, 1, 2]

/-- Offsets of the loops `for (d=-2; d<2; d++)`. -/
def offs4 : List Int := [-2, -1, 0, 1]

/-- Body of the double loop of `boundaryPoint`; the state is `(cntOuter, cntInner)`. -/
def boundaryStep (im : Image) (x y : Int) (st : Int × Int) (dy dx : Int) : Int × Int :=
  let cx := x + dx
  let cy := y + dy
  if inBounds im cx cy then
    let st1 : Int × Int :=
      if eqColor (im.px cy cx) backgroundOuter 10 || decide (im.px cy cx = transparent) then
        (st.1 + 1, st.2)
      else st
    if eqColor (im.px cy cx) backgroundInner 10 then (st1.1, st1.2 + 1) else st1
  else (st.1 + 1, st.2)

/-- The counters `(cntOuter, cntInner)` of `boundaryPoint` after its loops (`dy` outer, `dx` inner). -/
def boundaryCounts (im : Image) (x y : Int) : Int × Int :=
  offs5.foldl (fun st dy => offs5.foldl (fun st1 dx => boundaryStep im x y st1 dy dx) st) (0, 0)

/-- Source `boundaryPoint(im, x, y)`. -/
def boundaryPoint (im : Image) (x y : Int) : Bool :=
  decide ((boundaryCounts im x y).1 > 5) && decide ((boundaryCounts im x y).2 > 5)

/-- Source `isPaletteColor(col)`: the accumulating loop over `palette`. -/
def isPaletteColor (col : Vec4b) : Bool :=
  palette.foldl (fun paletteColor p => paletteColor || eqColor p col) false

/-- Body of the double loop of `neibColor`; the state is `(res, mindist)`. -/
def neibStep (im : Image) (x y : Int) (st : Vec4b × Int) (dx dy : Int) : Vec4b × Int :=
  let cx := x + dx
  let cy := y + dy
  if inBounds im cx cy then
    if isPaletteColor (im.px cy cx) && decide (im.px cy cx ≠ badPaletteColor)
        && decide ((Int.natAbs dx : Int) + (Int.natAbs dy : Int) < st.2) then
      (im.px cy cx, (Int.natAbs dx : Int) + (Int.natAbs dy : Int))
    else st
  else st

/-- The locals `(res, mindist)` of `neibColor` after its loops (`dx` outer, `dy` inner). -/
def neibScan (im : Image) (x y : Int) : Vec4b × Int :=
  offs4.foldl (fun st dx => offs4.foldl (fun st1 dy => neibStep im x y st1 dx dy) st) (transparent, 10)

/-- Source `neibColor(im, x, y)`. -/
def neibColor (im : Image) (x y : Int) : Vec4b :=
  (neibScan im x y).1

/-- Body of the double loop of `isKeptBlack`; the state is `hasBlackNear`. -/
def keptBlackStep (stencil : Image) (x y : Int) (hasBlackNear : Bool) (dx dy : Int) : Bool :=
  let cx := x + dx
  let cy := y + dy
  if inBounds stencil cx cy then
    hasBlackNear || eqColor (stencil.px cy cx) black 10
  else hasBlackNear

/-- Source `isKeptBlack(im, x, y, stencil)`. -/
def isKeptBlack (im : Image) (x y : Int) (stencil : Image) : Bool :=
  let hasBlackNear : Bool :=
    offs4.foldl (fun st dx => offs4.foldl (fun st1 dy => keptBlackStep stencil x y st1 dx dy) st) false
  eqColor (im.px y x) black && !hasBlackNear

/-- Source `isBadRoadColor(im, x, y, stencil)`. -/
def isBadRoadColor (im : Image) (x y : Int) (stencil : Image) : Bool :=
  eqColor (im.px y x) badPaletteColor && eqColor (stencil.px y x) badPaletteColor 50

/-- Source `replacementColor(im, x, y, stencil)`. -/
def replacementColor (im : Image) (x y : Int) (stencil : Image) : Vec4b :=
  if boundaryPoint im x y then
    boundaryColor
  else if (!isPaletteColor (im.px y x) && !isKeptBlack im x y stencil) || isBadRoadColor im x y stencil then
    neibColor im x y
  else
    im.px y x

/-- One-pixel raster holding `p`. -/
def onePixel (p : Vec4b) : Image := ⟨1, 1, fun _ _ => p⟩

/-! ## Specification-side vocabulary -/

/-- Manhattan distance `abs(dx)+abs(dy)` of an offset. -/
def mdist (dx dy : Int) : Int := (Int.natAbs dx : Int) + (Int.natAbs dy : Int)

/-- The position `(x+dx, y+dy)` is in bounds and holds a palette colour different from
the bad palette colour. -/
def qualifies (im : Image) (x y dx dy : Int) : Bool :=
  inBounds im (x + dx) (y + dy) && isPaletteColor (im.px (y + dy) (x + dx))
    && decide (im.px (y + dy) (x + dx) ≠ badPaletteColor)

/-- Offsets `(dx, dy)` of the 4x4 window in the order of the loops: `dx` outer, `dy` inner. -/
def scan4 : List (Int × Int) := offs4.flatMap fun dx => offs4.map fun dy => (dx, dy)

/-- Strict lexicographic order on offsets, `dx` first. -/
def lexLt (a b : Int × Int) : Prop := a.1 < b.1 ∨ (a.1 = b.1 ∧ a.2 < b.2)

instance (a b : Int × Int) : Decidable (lexLt a b) := by unfold lexLt; infer_instance

/-- The position `(cx, cy)` counts for `cntOuter`: out of bounds, fully transparent, or
within tolerance 10 of the outer background. -/
def outerPos (im : Image) (cx cy : Int) : Bool :=
  !inBounds im cx cy || decide (im.px cy cx = transparent) || eqColor (im.px cy cx) backgroundOuter 10

/-- The position `(cx, cy)` counts for `cntInner`: in bounds and within tolerance 10 of the
inner background. -/
def innerPos (im : Image) (cx cy : Int) : Bool :=
  inBounds im cx cy && eqColor (im.px cy cx) backgroundInner 10

/-- Offsets `(dx, dy)` of the 5x5 window in the order of the loops: `dy` outer, `dx` inner. -/
def win5 : List (Int × Int) := offs5.flatMap fun dy => offs5.map fun dx => (dx, dy)

/-- Number of the 25 window positions around `(x, y)` that count as outer. -/
def outerCount (im : Image) (x y : Int) : Nat :=
  win5.countP fun o => outerPos im (x + o.1) (y + o.2)

/-- Number of the 25 window positions around `(x, y)` that count as inner. -/
def innerCount (im : Image) (x y : Int) : Nat :=
  win5.countP fun o => innerPos im (x + o.1) (y + o.2)

/-! ## Concrete rasters used in scenarios -/

/-- A palette colour of the legend, used as filler. -/
def legendBlue : Vec4b := ⟨0, 0, 255, 255⟩

/-- A palette colour of the legend, used as a second filler. -/
def legendGreen : Vec4b := ⟨0, 152, 0, 255⟩

/-- A colour one unit away from the bad palette colour. -/
def nearBadColor : Vec4b := ⟨0, 68, 137, 255⟩

/-- 5x5 patch with 6 outer-background pixels (row 0 and the first pixel of row 1), 6
inner-background pixels (row 4 and the last pixel of row 3), legend colour elsewhere. -/
def patch6 : Image :=
  ⟨5, 5, fun y x =>
    if y = 0 ∨ (y = 1 ∧ x = 0) then backgroundOuter
    else if y = 4 ∨ (y = 3 ∧ x = 4) then backgroundInner
    else legendBlue⟩

/-- 5x5 patch with 3 outer-background pixels, 3 inner-background pixels, legend colour elsewhere. -/
def patch3 : Image :=
  ⟨5, 5, fun y x =>
    if y = 0 ∧ x ≤ 2 then backgroundOuter
    else if y = 4 ∧ x ≤ 2 then backgroundInner
    else legendBlue⟩

/-- 4x4 patch around the target pixel `(2, 2)`: legend colours only at offsets `(-1,-1)`
(position `(1,1)`) and `(1,-1)` (position `(3,1)`), inner background elsewhere. -/
def tiePatch : Image :=
  ⟨4, 4, fun y x =>
    if y = 1 ∧ x = 1 then legendBlue
    else if y = 1 ∧ x = 3 then legendGreen
    else backgroundInner⟩

/-! ## Centre and scale detection (`makeCumulative`, `detectCenter`) -/

/-- Source `v[i] += d` on a counter of `detectCenter` (`cnt[x]++`); the source only does it
for `i < v.size()`.  Such a counter is at most the number of rows or of columns of the raster,
itself an `int`, so the increment cannot overflow. -/
def addAt : List Int → Nat → Int → List Int
  | [], _, _ => []
  | a :: t, 0, d => (a + d) :: t
  | a :: t, i + 1, d => a :: addAt t i d

/-- The 32-bit `int` that holds the integer `z` after a two's-complement wrap-around: the
value in `[-2^31, 2^31)` congruent to `z` modulo `2^32`. -/
def wrap32 (z : Int) : Int := (z + 2147483648) % 4294967296 - 2147483648

/-- Source `res[i] += d` of `makeCumulative`, an addition in 32-bit `int`. -/
def addAt32 : List Int → Nat → Int → List Int
  | [], _, _ => []
  | a :: t, 0, d => wrap32 (a + d) :: t
  | a :: t, i + 1, d => a :: addAt32 t i d

/-- Source constant `avgStep` of `makeCumulative`. -/
def avgStep : Int := 50

/-- Values of `j` in the loop `for (j=-avgStep; j<=avgStep; j++)`. -/
def avgOffsets : List Int := (List.range 101).map fun (t : Nat) => (t : Int) - avgStep

/-- The two clamps `if (pos<0) pos=0; if (pos>=v.size()) pos=v.size()-1;` for a vector of size `n`. -/
def clampPos (n : Nat) (pos : Int) : Int :=
  let pos1 := if pos < 0 then 0 else pos
  if pos1 ≥ (n : Int) then (n : Int) - 1 else pos1

/-- Source `makeCumulative(v)`: `res` starts as `v.size()` zeros, `i` outer, `j` inner; the
sums are accumulated in 32-bit `int`. -/
def makeCumulative (v : List Int) : List Int :=
  (List.range v.length).foldl
    (fun res i =>
      avgOffsets.foldl
        (fun res1 j => addAt32 res1 i (v.getD (clampPos v.length ((i : Int) + j)).toNat 0)) res)
    (List.replicate v.length 0)

/-- The four histograms of `detectCenter`. -/
structure Hist where
  cntLineX : List Int
  cntLineY : List Int
  cntBgX : List Int
  cntBgY : List Int

/-- Body of the counting loop of `detectCenter` at the pixel `(x, y)`. -/
def histStep (im : Image) (h : Hist) (y x : Nat) : Hist :=
  let h1 : Hist :=
    if eqColor (im.px y x) backgroundOuter 10 then
      { h with cntBgX := addAt h.cntBgX x 1, cntBgY := addAt h.cntBgY y 1 }
    else h
  if eqColor (im.px y x) lineColor 10 then
    { h1 with cntLineX := addAt h1.cntLineX x 1, cntLineY := addAt h1.cntLineY y 1 }
  else h1

/-- The histograms after the counting loop of `detectCenter` (`y` outer, `x` inner). -/
def histograms (im : Image) : Hist :=
  (List.range im.rows).foldl
    (fun h y => (List.range im.cols).foldl (fun h1 x => histStep im h1 y x) h)
    ⟨List.replicate im.cols 0, List.replicate im.rows 0,
     List.replicate im.cols 0, List.replicate im.rows 0⟩

/-- Value of `*max_element(v.begin(), v.end())`; `none` for an empty vector, where the source
dereferences the end iterator (undefined behaviour). -/
def maxElement : List Int → Option Int
  | [] => none
  | a :: t => some (t.foldl (fun m v => if m < v then v else m) a)

/-- Source `deltas[k]++` on the `std::map<int,int>`, kept as the list of its entries in key
order; a missing key is inserted with the count 1. -/
def mapIncr : List (Int × Int) → Int → List (Int × Int)
  | [], k => [(k, 1)]
  | (k1, c) :: t, k =>
    if k < k1 then (k, 1) :: (k1, c) :: t
    else if k = k1 then (k1, c + 1) :: t
    else (k1, c) :: mapIncr t k

/-- Locals of a candidate loop of `detectCenter`: `result.x` (or `result.y`), `prev`, `deltas`. -/
structure Scan where
  res : Nat
  prev : Int
  deltas : List (Int × Int)
deriving DecidableEq, Repr

/-- The candidate test `cnt[x] > maxLine *7/10` (`/` truncates). -/
def isCandidate (cnt : List Int) (maxLine : Int) (x : Nat) : Bool :=
  decide (cnt.getD x 0 > (maxLine * 7).tdiv 10)

/-- Body of a candidate loop of `detectCenter` at the index `x`. -/
def candStep (cnt : List Int) (maxLine : Int) (cum : List Int) (s : Scan) (x : Nat) : Scan :=
  if isCandidate cnt maxLine x then
    { res := if cum.getD x 0 < cum.getD s.res 0 then x else s.res
      prev := (x : Int)
      deltas := if s.prev ≠ -1 then mapIncr s.deltas ((x : Int) - s.prev) else s.deltas }
  else s

/-- A whole candidate loop over the indices `0 .. cnt.size()-1`, entered with `result` at 0,
`prev = -1` and the deltas counted so far. -/
def candScan (cnt : List Int) (maxLine : Int) (cum : List Int) (deltas : List (Int × Int)) : Scan :=
  (List.range cnt.length).foldl (candStep cnt maxLine cum) ⟨0, -1, deltas⟩

/-- The loop `maxDelta = *deltas.begin(); for (v : deltas) if (v.second > maxDelta.second)
maxDelta = v;`; `none` for an empty map, where the source dereferences `begin()` of an empty
container (undefined behaviour, no error is raised). -/
def modeDelta : List (Int × Int) → Option (Int × Int)
  | [] => none
  | first :: rest => some ((first :: rest).foldl (fun m v => if v.2 > m.2 then v else m) first)

/-- The column scan and the row scan of `detectCenter`; `none` when a line histogram is empty
and `max_element` has nothing to return. -/
def detectScans (im : Image) : Option (Scan × Scan) :=
  let h := histograms im
  let cumBgX := makeCumulative h.cntBgX
  let cumBgY := makeCumulative h.cntBgY
  match maxElement h.cntLineX, maxElement h.cntLineY with
  | some maxLineX, some maxLineY =>
    let sx := candScan h.cntLineX maxLineX cumBgX []
    let sy := candScan h.cntLineY maxLineY cumBgY sx.deltas
    some (sx, sy)
  | _, _ => none

/-- Nearest integer to the quotient `a / b` of two naturals (`b > 0`), ties to the even one. -/
def roundHalfEven (a b : Nat) : Nat :=
  let q := a / b
  let r := a % b
  if 2 * r < b then q
  else if b < 2 * r then q + 1
  else if q % 2 = 0 then q else q + 1

/-- Binary exponent of the quotient of two positive naturals: the `e` with
`2^e ≤ a / b < 2^(e+1)`. -/
def quotExp (a b : Nat) : Int :=
  let e0 : Int := (Nat.log2 a : Int) - (Nat.log2 b : Int)
  if b * 2 ^ e0.toNat ≤ a * 2 ^ (-e0).toNat then e0 else e0 - 1

/-- The `float` quotient of two positive naturals that are themselves `float` values: the
quotient `a / b` rounded to a 24-bit significand (IEEE 754 binary32, round to nearest, ties to
even), as a rational number; 0 for `a = 0`.  The exponent limits of `float` are not modelled:
the quotients formed here, an `int` by 120, lie far inside the range of normal numbers. -/
def f32Quot (a b : Nat) : ℚ :=
  if a = 0 ∨ b = 0 then 0
  else
    (roundHalfEven (a * 2 ^ (23 - quotExp a b).toNat) (b * 2 ^ (quotExp a b - 23).toNat) : ℚ)
      * 2 ^ (quotExp a b - 23)

/-- The conversion `(float)n` of a natural `n`: `n` itself up to 24 bits, otherwise `n`
rounded to a 24-bit significand (nearest, ties to even); the value is again a natural. -/
def f32OfNat (n : Nat) : Nat :=
  if Nat.log2 n ≤ 23 then n
  else roundHalfEven n (2 ^ (Nat.log2 n - 23)) * 2 ^ (Nat.log2 n - 23)

/-- Source expression `(float)maxDelta.first / defaultLineDelta` for `maxDelta.first = d`:
`d` is converted to `float`, `defaultLineDelta` (120, exact in `float`) likewise, and the
division is a single-precision division. -/
def scaleOf (d : Int) : ℚ :=
  if d < 0 then - f32Quot (f32OfNat d.natAbs) defaultLineDelta.toNat
  else f32Quot (f32OfNat d.natAbs) defaultLineDelta.toNat

/-- Output of `detectCenter`: `detectedCenter` (a column and a row index, stored in a `point`)
and `detectedScaling`, the value of a `float`. -/
structure Calibration where
  centerX : Nat
  centerY : Nat
  scaling : ℚ
deriving DecidableEq

/-- Source `detectCenter(im, detectedCenter, detectedScaling)`; `none` where the source has
undefined behaviour (empty raster, or empty map of deltas). -/
def detectCenter (im : Image) : Option Calibration :=
  match detectScans im with
  | none => none
  | some (sx, sy) =>
    match modeDelta sy.deltas with
    | none => none
    | some maxDelta =>
      some ⟨sx.res, sy.res, scaleOf maxDelta.1⟩

/-! ## The two sweeps of `transformProjection` -/

/-- Source assignment `im(y,x) = v`. -/
def Image.set (im : Image) (y x : Int) (v : Vec4b) : Image :=
  ⟨im.rows, im.cols, fun cy cx => if cy = y ∧ cx = x then v else im.px cy cx⟩

/-- Body of the resampling sweep at the target pixel `(tx, ty)`; `srcOf ty tx` is the pair
`(sourceXpx, sourceYpx)` that the projection chain gives for it. -/
def resampleStep (source : Image) (srcOf : Nat → Nat → Int × Int) (target : Image)
    (ty tx : Nat) : Image :=
  let sourceXpx := (srcOf ty tx).1
  let sourceYpx := (srcOf ty tx).2
  if inBounds source sourceXpx sourceYpx then
    target.set ty tx (source.px sourceYpx sourceXpx)
  else target

/-- The resampling sweep: `target` starts fully transparent, `targetYpx` outer, `targetXpx`
inner. -/
def resample (source : Image) (targetHeight targetWidth : Nat)
    (srcOf : Nat → Nat → Int × Int) : Image :=
  (List.range targetHeight).foldl
    (fun t ty => (List.range targetWidth).foldl (fun t1 tx => resampleStep source srcOf t1 ty tx) t)
    ⟨targetHeight, targetWidth, fun _ _ => transparent⟩

/-- Body of the cleanup sweep; the state is `(target, targetWoBackground)`. -/
def cleanupStep (stencil : Image) (st : Image × Image) (ty tx : Nat) : Image × Image :=
  (st.1, st.2.set ty tx (replacementColor st.1 tx ty stencil))

/-- The cleanup sweep of `transformProjection`, entered with `targetWoBackground = target.clone()`;
returns `(target, targetWoBackground)`. -/
def cleanup (target stencil : Image) : Image × Image :=
  (List.range target.rows).foldl
    (fun st ty => (List.range target.cols).foldl (fun st1 tx => cleanupStep stencil st1 ty tx) st)
    (target, target)

/-- Inverse mapping used in scenarios: target pixel `(tx, ty)` reads source pixel `(tx + 3, ty)`. -/
def shiftBy3 (ty tx : Nat) : Int × Int := ((tx : Int) + 3, (ty : Int))

/-- Number of pixels of column `x` within tolerance 10 of the colour `c`. -/
def colCount (im : Image) (c : Vec4b) (x : Nat) : Nat :=
  (List.range im.rows).countP fun (y : Nat) => eqColor (im.px y x) c 10

/-- Number of pixels of row `y` within tolerance 10 of the colour `c`. -/
def rowCount (im : Image) (c : Vec4b) (y : Nat) : Nat :=
  (List.range im.cols).countP fun (x : Nat) => eqColor (im.px y x) c 10

/-- The smoothed background histogram `cumBgX` of `detectCenter`. -/
def cumBgX (im : Image) : List Int := makeCumulative (histograms im).cntBgX

/-- The smoothed background histogram `cumBgY` of `detectCenter`. -/
def cumBgY (im : Image) : List Int := makeCumulative (histograms im).cntBgY

/-- Column `x` passes the candidate test of `detectCenter` against the peak `maxLineX`. -/
def columnCandidate (im : Image) (x : Nat) : Bool :=
  match maxElement (histograms im).cntLineX with
  | some maxLineX => isCandidate (histograms im).cntLineX maxLineX x
  | none => false

/-- Row `y` passes the candidate test of `detectCenter` against the peak `maxLineY`. -/
def rowCandidate (im : Image) (y : Nat) : Bool :=
  match maxElement (histograms im).cntLineY with
  | some maxLineY => isCandidate (histograms im).cntLineY maxLineY y
  | none => false

/-- The value of `result` after both candidate loops of `detectCenter` (line 286), which the
source then stores into `detectedCenter`; `none` only when a line histogram is empty. -/
def detectedCenter (im : Image) : Option (Nat × Nat) :=
  (detectScans im).map fun s => (s.1.res, s.2.res)

/-- The map `deltas` of `detectCenter` after both candidate loops. -/
def detectDeltas (im : Image) : Option (List (Int × Int)) :=
  (detectScans im).map fun s => s.2.deltas

/-- Row raster `[outer background, line, line]`. -/
def rowBgLineLine : Image :=
  ⟨1, 3, fun _ x => if x = 0 then backgroundOuter else lineColor⟩

/-- Pixel distances recorded by a candidate loop entered with `prev`: one for each candidate
after the first (after `prev` itself when `prev` is not the sentinel `-1`). -/
def gapsFrom : Int → List Nat → List Int
  | _, [] => []
  | prev, x :: xs =>
    if prev ≠ -1 then ((x : Int) - prev) :: gapsFrom (x : Int) xs else gapsFrom (x : Int) xs

/-- One-row raster of width 251 with line-coloured pixels exactly at the columns 10, 130 and
250, legend colour elsewhere. -/
def gridRow : Image :=
  ⟨1, 251, fun _ x => if x = 10 ∨ x = 130 ∨ x = 250 then lineColor else legendBlue⟩

/-- One-row raster of width 2: a legend colour, then the bad palette colour. -/
def blueBadRow : Image :=
  ⟨1, 2, fun _ x => if x = 1 then badPaletteColor else legendBlue⟩

/-- 3x3 raster with the line colour on the last column and on the last row, outer background
elsewhere: one candidate per axis. -/
def crossImg : Image :=
  ⟨3, 3, fun y x => if x = 2 ∨ y = 2 then lineColor else backgroundOuter⟩

/-- One-row raster of width 6 with line-coloured pixels at the columns 0, 1, 3 and 5: the
deltas are 1, 2 and 2. -/
def gapsRow : Image :=
  ⟨1, 6, fun _ x => if x = 2 ∨ x = 4 then legendBlue else lineColor⟩

/-- One-row raster of width 4 with line-coloured pixels at the columns 0, 2 and 3: the deltas
are 2 (met first) and 1. -/
def tieRow : Image :=
  ⟨1, 4, fun _ x => if x = 1 then legendBlue else lineColor⟩

/-! ## The neighbour scan -/

theorem neibScan_flat (im : Image) (x y : Int) :
    neibScan im x y = scan4.foldl (fun st o => neibStep im x y st o.1 o.2) (transparent, 10) := rfl

theorem neibStep_eq (im : Image) (x y : Int) (st : Vec4b × Int) (dx dy : Int) :
    neibStep im x y st dx dy =
      if qualifies im x y dx dy = true ∧ mdist dx dy < st.2 then
        (im.px (y + dy) (x + dx), mdist dx dy) else st := by
  unfold neibStep qualifies mdist
  by_cases hb : inBounds im (x + dx) (y + dy) = true <;>
  by_cases hp : isPaletteColor (im.px (y + dy) (x + dx)) = true <;>
  by_cases hn : im.px (y + dy) (x + dx) = badPaletteColor <;>
  by_cases hd : (Int.natAbs dx : Int) + (Int.natAbs dy : Int) < st.2 <;>
  simp [hb, hp, hn, hd]

/-- Result of the scan over any list of offsets: either nothing improved on the
incoming state, or the result comes from the first offset of least distance. -/
theorem neibFold_spec (im : Image) (x y : Int) (l : List (Int × Int)) :
    ∀ st : Vec4b × Int,
      (l.foldl (fun st o => neibStep im x y st o.1 o.2) st = st ∧
        ∀ o ∈ l, qualifies im x y o.1 o.2 = true → st.2 ≤ mdist o.1 o.2) ∨
      (∃ l1 o l2, l = l1 ++ o :: l2 ∧ qualifies im x y o.1 o.2 = true ∧ mdist o.1 o.2 < st.2 ∧
        l.foldl (fun st o => neibStep im x y st o.1 o.2) st
          = (im.px (y + o.2) (x + o.1), mdist o.1 o.2) ∧
        (∀ o' ∈ l1, qualifies im x y o'.1 o'.2 = true → mdist o.1 o.2 < mdist o'.1 o'.2) ∧
        (∀ o' ∈ l2, qualifies im x y o'.1 o'.2 = true → mdist o.1 o.2 ≤ mdist o'.1 o'.2)) := by
  induction l with
  | nil => intro st; left; simp
  | cons a l ih =>
    intro st
    rw [List.foldl_cons, neibStep_eq]
    by_cases hc : qualifies im x y a.1 a.2 = true ∧ mdist a.1 a.2 < st.2
    · rw [if_pos hc]
      rcases ih (im.px (y + a.2) (x + a.1), mdist a.1 a.2) with ⟨hr, hall⟩ | ⟨l1, o, l2, hl, hq, hlt, hr, h1, h2⟩
      · right
        exact ⟨[], a, l, rfl, hc.1, hc.2, hr, by simp, hall⟩
      · right
        refine ⟨a :: l1, o, l2, by simp [hl], hq, lt_trans hlt hc.2, hr, ?_, h2⟩
        intro o' ho' hq'
        rcases List.mem_cons.mp ho' with rfl | hm
        · exact hlt
        · exact h1 o' hm hq'
    · rw [if_neg hc]
      rcases ih st with ⟨hr, hall⟩ | ⟨l1, o, l2, hl, hq, hlt, hr, h1, h2⟩
      · left
        refine ⟨hr, ?_⟩
        intro o ho hq
        rcases List.mem_cons.mp ho with rfl | hm
        · exact not_lt.mp fun h => hc ⟨hq, h⟩
        · exact hall o hm hq
      · right
        refine ⟨a :: l1, o, l2, by simp [hl], hq, hlt, hr, ?_, h2⟩
        intro o' ho' hq'
        rcases List.mem_cons.mp ho' with rfl | hm
        · exact lt_of_lt_of_le hlt (not_lt.mp fun h => hc ⟨hq', h⟩)
        · exact h1 o' hm hq'

theorem mdist_scan4_lt (o : Int × Int) (ho : o ∈ scan4) : mdist o.1 o.2 < 10 := by
  revert o
  decide

theorem scan4_pairwise : scan4.Pairwise lexLt := by decide

theorem mem_scan4 (dx dy : Int) : (dx, dy) ∈ scan4 ↔ dx ∈ offs4 ∧ dy ∈ offs4 := by
  simp only [scan4, offs4, List.mem_flatMap, List.mem_map, Prod.mk.injEq]
  constructor
  · rintro ⟨a, ha, b, hb, rfl, rfl⟩
    exact ⟨ha, hb⟩
  · rintro ⟨ha, hb⟩
    exact ⟨dx, ha, dy, hb, rfl, rfl⟩

/-- The two possible outcomes of the whole scan of `neibColor`. -/
theorem neibScan_cases (im : Image) (x y : Int) :
    (neibScan im x y = (transparent, 10) ∧
      ∀ o ∈ scan4, qualifies im x y o.1 o.2 = false) ∨
    (∃ l1 o l2, scan4 = l1 ++ o :: l2 ∧ qualifies im x y o.1 o.2 = true ∧
      neibScan im x y = (im.px (y + o.2) (x + o.1), mdist o.1 o.2) ∧
      (∀ o' ∈ l1, qualifies im x y o'.1 o'.2 = true → mdist o.1 o.2 < mdist o'.1 o'.2) ∧
      (∀ o' ∈ l2, qualifies im x y o'.1 o'.2 = true → mdist o.1 o.2 ≤ mdist o'.1 o'.2)) := by
  rw [neibScan_flat]
  rcases neibFold_spec im x y scan4 (transparent, 10) with ⟨hr, hall⟩ | ⟨l1, o, l2, hl, hq, _, hr, h1, h2⟩
  · left
    refine ⟨hr, ?_⟩
    intro o ho
    by_contra hq
    have h10 := hall o ho (by simpa using hq)
    have hlt := mdist_scan4_lt o ho
    simp only at h10
    omega
  · right
    exact ⟨l1, o, l2, hl, hq, hr, h1, h2⟩

theorem foldl_or_eq_any {α : Type} (f : α → Bool) (l : List α) :
    ∀ b : Bool, l.foldl (fun acc p => acc || f p) b = (b || l.any f) := by
  induction l with
  | nil => intro b; simp
  | cons a l ih => intro b; simp [List.foldl_cons, ih, Bool.or_assoc]

theorem isPaletteColor_eq_any (c : Vec4b) :
    isPaletteColor c = palette.any fun p => eqColor p c := by
  unfold isPaletteColor
  rw [foldl_or_eq_any]
  simp

theorem eqColor_iff_lt (a b : Vec4b) (eps : Int) :
    eqColor a b eps = true ↔
      chanDiff a.v0 b.v0 + chanDiff a.v1 b.v1 + chanDiff a.v2 b.v2 + chanDiff a.v3 b.v3 < eps := by
  simp [eqColor]

theorem chanDiff_triangle (a b c : Fin 256) :
    chanDiff a c ≤ chanDiff a b + chanDiff b c := by
  unfold chanDiff
  omega

/-- Triangle inequality for the tolerance equality. -/
theorem eqColor_trans (q p r : Vec4b) (e1 e2 : Int)
    (h1 : eqColor q p e1 = true) (h2 : eqColor p r e2 = true) :
    eqColor q r (e1 + e2 - 1) = true := by
  rw [eqColor_iff_lt] at h1 h2 ⊢
  have t0 := chanDiff_triangle q.v0 p.v0 r.v0
  have t1 := chanDiff_triangle q.v1 p.v1 r.v1
  have t2 := chanDiff_triangle q.v2 p.v2 r.v2
  have t3 := chanDiff_triangle q.v3 p.v3 r.v3
  linarith

theorem palette_not_inner (p : Vec4b) (h : isPaletteColor p = true) :
    eqColor p backgroundInner 10 = false := by
  rw [isPaletteColor_eq_any, List.any_eq_true] at h
  obtain ⟨q, hq, hqp⟩ := h
  by_contra hc
  have h11 := eqColor_trans q p backgroundInner 2 10 hqp (by simpa using hc)
  have hall : ∀ q ∈ palette, eqColor q backgroundInner (2 + 10 - 1) = false := by decide
  rw [hall q hq] at h11
  exact Bool.false_ne_true h11

/-! ## The boundary counters -/

theorem boundaryCounts_flat (im : Image) (x y : Int) :
    boundaryCounts im x y = win5.foldl (fun st o => boundaryStep im x y st o.2 o.1) (0, 0) := rfl

theorem boundaryStep_eq (im : Image) (x y : Int) (st : Int × Int) (dy dx : Int) :
    boundaryStep im x y st dy dx =
      (st.1 + (if outerPos im (x + dx) (y + dy) = true then 1 else 0),
       st.2 + (if innerPos im (x + dx) (y + dy) = true then 1 else 0)) := by
  simp only [boundaryStep, outerPos, innerPos]
  have hti : eqColor transparent backgroundInner 10 = false := by decide
  have hto : eqColor transparent backgroundOuter 10 = false := by decide
  by_cases hb : inBounds im (x + dx) (y + dy) = true <;>
  by_cases ho : eqColor (im.px (y + dy) (x + dx)) backgroundOuter 10 = true <;>
  by_cases ht : im.px (y + dy) (x + dx) = transparent <;>
  by_cases hi : eqColor (im.px (y + dy) (x + dx)) backgroundInner 10 = true <;>
  simp [hb, ho, ht, hi, hti, hto]

theorem boundaryFold_eq (im : Image) (x y : Int) (l : List (Int × Int)) :
    ∀ st : Int × Int,
      l.foldl (fun st o => boundaryStep im x y st o.2 o.1) st =
        (st.1 + (l.countP fun o => outerPos im (x + o.1) (y + o.2) : Nat),
         st.2 + (l.countP fun o => innerPos im (x + o.1) (y + o.2) : Nat)) := by
  induction l with
  | nil => intro st; simp
  | cons a l ih =>
    intro st
    rw [List.foldl_cons, ih, boundaryStep_eq, List.countP_cons, List.countP_cons]
    ext <;> simp <;> split <;> omega

theorem boundaryCounts_eq (im : Image) (x y : Int) :
    boundaryCounts im x y = ((outerCount im x y : Int), (innerCount im x y : Int)) := by
  rw [boundaryCounts_flat, boundaryFold_eq]
  simp [outerCount, innerCount]

/-! ## Claims on the cleanup decision -/

/-- C1: for an in-bounds pixel that is not a boundary point and a stencil of the same
dimensions, `replacementColor` returns `neibColor(im,x,y)` when (the pixel is not a palette
colour and is not kept black) or the pixel is a bad-road colour, and the pixel itself otherwise. -/
theorem replacementColor_not_boundary (im stencil : Image) (x y : Int)
    (_hin : inBounds im x y = true)
    (_hdim : stencil.rows = im.rows ∧ stencil.cols = im.cols)
    (hb : boundaryPoint im x y = false) :
    replacementColor im x y stencil =
      if (isPaletteColor (im.px y x) = false ∧ isKeptBlack im x y stencil = false)
          ∨ isBadRoadColor im x y stencil = true then
        neibColor im x y
      else im.px y x := by
  unfold replacementColor
  rw [hb]
  cases isPaletteColor (im.px y x) <;> cases isKeptBlack im x y stencil <;>
    cases isBadRoadColor im x y stencil <;> simp

/-- Witness of C1 on the one-pixel raster holding a legend colour. -/
theorem replacementColor_not_boundary_witness :
    replacementColor (onePixel legendBlue) 0 0 (onePixel legendGreen) =
      if (isPaletteColor ((onePixel legendBlue).px 0 0) = false
            ∧ isKeptBlack (onePixel legendBlue) 0 0 (onePixel legendGreen) = false)
          ∨ isBadRoadColor (onePixel legendBlue) 0 0 (onePixel legendGreen) = true then
        neibColor (onePixel legendBlue) 0 0
      else (onePixel legendBlue).px 0 0 :=
  replacementColor_not_boundary (onePixel legendBlue) (onePixel legendGreen) 0 0
    (by decide) (by decide) (by decide)

/-- C2: for an in-bounds pixel that is a boundary point, `replacementColor` returns the
boundary-marker colour `(128,0,0,255)`, whatever the pixel and whatever the stencil. -/
theorem replacementColor_boundary (im stencil : Image) (x y : Int)
    (_hin : inBounds im x y = true)
    (hb : boundaryPoint im x y = true) :
    replacementColor im x y stencil = boundaryColor ∧ boundaryColor = ⟨128, 0, 0, 255⟩ := by
  unfold replacementColor
  rw [hb]
  exact ⟨rfl, rfl⟩

/-- Witness of C2 at the centre of the 6+6 patch. -/
theorem replacementColor_boundary_witness :
    replacementColor patch6 2 2 patch3 = boundaryColor ∧ boundaryColor = ⟨128, 0, 0, 255⟩ :=
  replacementColor_boundary patch6 patch3 2 2 (by decide) (by decide)

/-! ## Claims on the neighbour search -/

/-- C3: when some offset of the 4x4 window qualifies (in bounds, palette colour, not the bad
palette colour), `neibColor` returns the pixel at a qualifying offset `(dx,dy)` whose Manhattan
distance is least among the qualifying offsets and which comes first, in the order `dx`
ascending then `dy` ascending, among those of that distance; with qualifying pixels only at
`(-1,-1)` and `(1,-1)` it returns the pixel at `(-1,-1)`. -/
theorem neibColor_nearest_first (im : Image) (x y : Int)
    (hQ : ∃ dx ∈ offs4, ∃ dy ∈ offs4, qualifies im x y dx dy = true) :
    (∃ dx ∈ offs4, ∃ dy ∈ offs4, qualifies im x y dx dy = true ∧
      (∀ ex ∈ offs4, ∀ ey ∈ offs4, qualifies im x y ex ey = true →
        mdist dx dy ≤ mdist ex ey ∧
        (mdist ex ey = mdist dx dy → dx < ex ∨ (dx = ex ∧ dy ≤ ey))) ∧
      neibColor im x y = im.px (y + dy) (x + dx)) ∧
    ((∀ ex ∈ offs4, ∀ ey ∈ offs4,
        (qualifies im x y ex ey = true ↔ (ex = -1 ∧ ey = -1) ∨ (ex = 1 ∧ ey = -1))) →
      neibColor im x y = im.px (y + -1) (x + -1)) := by
  have main : ∃ dx ∈ offs4, ∃ dy ∈ offs4, qualifies im x y dx dy = true ∧
      (∀ ex ∈ offs4, ∀ ey ∈ offs4, qualifies im x y ex ey = true →
        mdist dx dy ≤ mdist ex ey ∧
        (mdist ex ey = mdist dx dy → dx < ex ∨ (dx = ex ∧ dy ≤ ey))) ∧
      neibColor im x y = im.px (y + dy) (x + dx) := by
    rcases neibScan_cases im x y with ⟨_, hnone⟩ | ⟨l1, o, l2, hl, hq, hr, h1, h2⟩
    · obtain ⟨dx, hdx, dy, hdy, hq⟩ := hQ
      have := hnone (dx, dy) ((mem_scan4 dx dy).mpr ⟨hdx, hdy⟩)
      simp only [hq] at this
      exact absurd this (by decide)
    · have ho : o ∈ scan4 := by rw [hl]; simp
      obtain ⟨odx, ody⟩ := o
      have hmem := (mem_scan4 odx ody).mp ho
      refine ⟨odx, hmem.1, ody, hmem.2, hq, ?_, by simp [neibColor, hr]⟩
      intro ex hex ey hey hqe
      have he : (ex, ey) ∈ scan4 := (mem_scan4 ex ey).mpr ⟨hex, hey⟩
      have hpw := scan4_pairwise
      rw [hl] at he hpw
      have hpw2 := (List.pairwise_cons.mp (List.pairwise_append.mp hpw).2.1).1
      rcases List.mem_append.mp he with hin1 | hin2
      · have hlt := h1 (ex, ey) hin1 hqe
        simp only at hlt
        exact ⟨le_of_lt hlt, fun heq => absurd heq (ne_of_gt hlt)⟩
      · rcases List.mem_cons.mp hin2 with heq | hin3
        · have e1 : ex = odx := congrArg Prod.fst heq
          have e2 : ey = ody := congrArg Prod.snd heq
          subst e1 e2
          exact ⟨le_refl _, fun _ => Or.inr ⟨rfl, le_refl _⟩⟩
        · refine ⟨h2 (ex, ey) hin3 hqe, fun _ => ?_⟩
          rcases hpw2 (ex, ey) hin3 with hlt | ⟨he1, he2⟩
          · exact Or.inl hlt
          · exact Or.inr ⟨he1, le_of_lt he2⟩
  refine ⟨main, ?_⟩
  intro hex
  obtain ⟨dx, hdx, dy, hdy, hq, hmin, hres⟩ := main
  have hm1 : (-1 : Int) ∈ offs4 := by decide
  rcases (hex dx hdx dy hdy).mp hq with ⟨rfl, rfl⟩ | ⟨rfl, rfl⟩
  · exact hres
  · have hq1 : qualifies im x y (-1) (-1) = true := (hex (-1) hm1 (-1) hm1).mpr (Or.inl ⟨rfl, rfl⟩)
    have := (hmin (-1) hm1 (-1) hm1 hq1).2 (by decide)
    omega

/-- Witness of C3 on the 4x4 tie patch: the pixel at offset `(-1,-1)` wins. -/
theorem neibColor_nearest_first_witness :
    (∃ dx ∈ offs4, ∃ dy ∈ offs4, qualifies tiePatch 2 2 dx dy = true) ∧
    neibColor tiePatch 2 2 = legendBlue :=
  ⟨by decide,
   ((neibColor_nearest_first tiePatch 2 2 (by decide)).2 (by decide)).trans (by decide)⟩

/-- C7: the bad palette colour `(0,68,136,255)` is a member of the palette, and `neibColor`
never returns it. -/
theorem neibColor_ne_badPaletteColor :
    badPaletteColor = ⟨0, 68, 136, 255⟩ ∧ badPaletteColor ∈ palette ∧
    isPaletteColor badPaletteColor = true ∧
    ∀ (im : Image) (x y : Int), neibColor im x y ≠ badPaletteColor := by
  refine ⟨rfl, by decide, by decide, ?_⟩
  intro im x y
  rcases neibScan_cases im x y with ⟨hr, _⟩ | ⟨l1, o, l2, _, hq, hr, _, _⟩
  · simp only [neibColor, hr]
    decide
  · simp only [neibColor, hr]
    simp only [qualifies, Bool.and_eq_true, decide_eq_true_eq] at hq
    exact hq.2

/-- C8: `neibColor` returns the fully transparent colour exactly when no in-bounds position
of the 4x4 window holds a palette colour other than the bad palette colour; every offset of
the window is nearer than the initial threshold 10. -/
theorem neibColor_transparent_iff (im : Image) (x y : Int) :
    (neibColor im x y = transparent ↔
      ∀ dx ∈ offs4, ∀ dy ∈ offs4,
        ¬ (inBounds im (x + dx) (y + dy) = true ∧
            isPaletteColor (im.px (y + dy) (x + dx)) = true ∧
            im.px (y + dy) (x + dx) ≠ badPaletteColor)) ∧
    (∀ dx ∈ offs4, ∀ dy ∈ offs4, mdist dx dy < 10) ∧
    transparent = ⟨0, 0, 0, 0⟩ := by
  refine ⟨?_, by decide, rfl⟩
  rcases neibScan_cases im x y with ⟨hr, hnone⟩ | ⟨l1, o, l2, hl, hq, hr, _, _⟩
  · constructor
    · intro _ dx hdx dy hdy hc
      have := hnone (dx, dy) ((mem_scan4 dx dy).mpr ⟨hdx, hdy⟩)
      simp [qualifies, hc.1, hc.2.1, hc.2.2] at this
    · intro _
      simp [neibColor, hr]
  · have ho : o ∈ scan4 := by rw [hl]; simp
    obtain ⟨odx, ody⟩ := o
    have hmem := (mem_scan4 odx ody).mp ho
    simp only [qualifies, Bool.and_eq_true, decide_eq_true_eq] at hq
    constructor
    · intro ht
      simp only [neibColor, hr] at ht
      have hp := hq.1.2
      rw [ht] at hp
      exact absurd hp (by decide)
    · intro hall
      exact absurd ⟨hq.1.1, hq.1.2, hq.2⟩ (hall odx hmem.1 ody hmem.2)

/-! ## Claims on the boundary test -/

theorem mem_win5 (dx dy : Int) : (dx, dy) ∈ win5 ↔ dx ∈ offs5 ∧ dy ∈ offs5 := by
  simp only [win5, offs5, List.mem_flatMap, List.mem_map, Prod.mk.injEq]
  constructor
  · rintro ⟨a, ha, b, hb, rfl, rfl⟩
    exact ⟨hb, ha⟩
  · rintro ⟨ha, hb⟩
    exact ⟨dy, hb, dx, ha, rfl, rfl⟩

theorem boundaryPoint_eq (im : Image) (x y : Int) :
    boundaryPoint im x y = (decide (5 < outerCount im x y) && decide (5 < innerCount im x y)) := by
  unfold boundaryPoint
  rw [boundaryCounts_eq]
  simp

/-- In a 5x5 raster every position of the 5x5 window around `(2,2)` is in bounds. -/
theorem inBounds_patch (im : Image) (hr : im.rows = 5) (hc : im.cols = 5)
    (o : Int × Int) (ho : o ∈ win5) : inBounds im (2 + o.1) (2 + o.2) = true := by
  obtain ⟨dx, dy⟩ := o
  have h := (mem_win5 dx dy).mp ho
  simp only [offs5, List.mem_cons, List.mem_singleton, List.not_mem_nil, or_false] at h
  simp only [inBounds, hr, hc, Bool.and_eq_true, decide_eq_true_eq]
  omega

/-- C4: `boundaryPoint` holds exactly when more than 5 of the 25 window positions
(`dx`, `dy` in `-2..2`, centre included) are out of bounds, fully transparent or within
tolerance 10 of the outer background, and more than 5 are in bounds and within tolerance 10
of the inner background.  In a 5x5 patch, 6 outer-background and 6 inner-background pixels
make the centre a boundary point, and 3 inner-background pixels do not; `patch6` and
`patch3` are such patches. -/
theorem boundaryPoint_iff_counts (im : Image) (x y : Int) :
    (boundaryPoint im x y = true ↔ 5 < outerCount im x y ∧ 5 < innerCount im x y) ∧
    (win5.length = 25 ∧ win5.Nodup ∧
      ∀ dx dy : Int, (dx, dy) ∈ win5 ↔ (-2 ≤ dx ∧ dx ≤ 2) ∧ (-2 ≤ dy ∧ dy ≤ 2)) ∧
    (∀ p : Image, p.rows = 5 → p.cols = 5 →
      (win5.countP (fun o => eqColor (p.px (2 + o.2) (2 + o.1)) backgroundOuter 10) = 6 →
        win5.countP (fun o => eqColor (p.px (2 + o.2) (2 + o.1)) backgroundInner 10) = 6 →
        boundaryPoint p 2 2 = true) ∧
      (win5.countP (fun o => eqColor (p.px (2 + o.2) (2 + o.1)) backgroundOuter 10) = 3 →
        win5.countP (fun o => eqColor (p.px (2 + o.2) (2 + o.1)) backgroundInner 10) = 3 →
        boundaryPoint p 2 2 = false)) ∧
    (win5.countP (fun o => eqColor (patch6.px (2 + o.2) (2 + o.1)) backgroundOuter 10) = 6 ∧
      win5.countP (fun o => eqColor (patch6.px (2 + o.2) (2 + o.1)) backgroundInner 10) = 6 ∧
      boundaryPoint patch6 2 2 = true) ∧
    (win5.countP (fun o => eqColor (patch3.px (2 + o.2) (2 + o.1)) backgroundOuter 10) = 3 ∧
      win5.countP (fun o => eqColor (patch3.px (2 + o.2) (2 + o.1)) backgroundInner 10) = 3 ∧
      boundaryPoint patch3 2 2 = false) := by
  refine ⟨?_, ⟨by decide, by decide, ?_⟩, ?_, by decide, by decide⟩
  · rw [boundaryPoint_eq]
    simp
  · intro dx dy
    rw [mem_win5]
    simp only [offs5, List.mem_cons, List.mem_singleton, List.not_mem_nil, or_false]
    omega
  · intro p hr hc
    have hinner : innerCount p 2 2 =
        win5.countP (fun o => eqColor (p.px (2 + o.2) (2 + o.1)) backgroundInner 10) := by
      unfold innerCount
      apply List.countP_congr
      intro o ho
      simp [innerPos, inBounds_patch p hr hc o ho]
    have houter : win5.countP (fun o => eqColor (p.px (2 + o.2) (2 + o.1)) backgroundOuter 10)
        ≤ outerCount p 2 2 := by
      unfold outerCount
      apply List.countP_mono_left
      intro o _ h
      simp [outerPos, h]
    constructor
    · intro h6o h6i
      rw [boundaryPoint_eq, hinner, h6i]
      have : 5 < outerCount p 2 2 := by omega
      simp [this]
    · intro _ h3i
      rw [boundaryPoint_eq, hinner, h3i]
      simp

/-! ## Claims on the colour equality -/

/-- C9: `eqColor(a,b,eps)` holds exactly when the sum of the four absolute channel
differences, taken in the integers, is below `eps`; with the default `eps = 2` the sum is at
most 1.  Channels `0` and `255` are 255 apart, not 1 as they would be modulo 256. -/
theorem eqColor_iff_abs_sum (a b : Vec4b) (eps : Int) :
    (eqColor a b eps = true ↔
      |(a.v0.val : Int) - b.v0.val| + |(a.v1.val : Int) - b.v1.val|
        + |(a.v2.val : Int) - b.v2.val| + |(a.v3.val : Int) - b.v3.val| < eps) ∧
    (eqColor a b = true ↔
      |(a.v0.val : Int) - b.v0.val| + |(a.v1.val : Int) - b.v1.val|
        + |(a.v2.val : Int) - b.v2.val| + |(a.v3.val : Int) - b.v3.val| ≤ 1) ∧
    eqColor ⟨0, 0, 0, 0⟩ ⟨255, 0, 0, 0⟩ = false := by
  refine ⟨?_, ?_, by decide⟩
  · rw [eqColor_iff_lt]
    simp only [chanDiff, Int.natCast_natAbs]
  · rw [eqColor_iff_lt]
    simp only [chanDiff, Int.natCast_natAbs, colorEps]
    omega

/-- C10: tolerance monotonicity, `eqColor(p,r,eps1)` implies `eqColor(p,r,eps2)` for
`eps1 ≤ eps2`. -/
theorem eqColor_mono (p r : Vec4b) (eps1 eps2 : Int) (hle : eps1 ≤ eps2)
    (h : eqColor p r eps1 = true) : eqColor p r eps2 = true := by
  rw [eqColor_iff_lt] at h ⊢
  exact lt_of_lt_of_le h hle

/-- Witness of C10: a pixel one unit from the bad palette colour, tolerances 2 and 50. -/
theorem eqColor_mono_witness : eqColor nearBadColor badPaletteColor 50 = true :=
  eqColor_mono nearBadColor badPaletteColor 2 50 (by decide) (by decide)

/-! ## Claims on the bad palette colour in the cleanup -/

/-- On a raster none of whose pixels is near the inner background, no pixel is a boundary
point. -/
theorem boundaryPoint_false_of_no_inner (im : Image)
    (h : ∀ cx cy, inBounds im cx cy = true → eqColor (im.px cy cx) backgroundInner 10 = false)
    (x y : Int) : boundaryPoint im x y = false := by
  have h0 : innerCount im x y = 0 := by
    unfold innerCount
    rw [List.countP_eq_zero]
    intro o _ hpos
    simp only [innerPos, Bool.and_eq_true] at hpos
    rw [h _ _ hpos.1] at hpos
    exact Bool.false_ne_true hpos.2
  rw [boundaryPoint_eq, h0]
  simp

/-- C5, as stated, fails: on the one-pixel raster holding the bad palette colour (a
conforming raster, used as its own stencil) the palette-coloured pixel is replaced by the
transparent colour. -/
theorem cleanup_changes_bad_pixel :
    (∀ x y : Int, isPaletteColor ((onePixel badPaletteColor).px y x) = true) ∧
    inBounds (onePixel badPaletteColor) 0 0 = true ∧
    replacementColor (onePixel badPaletteColor) 0 0 (onePixel badPaletteColor) = transparent ∧
    replacementColor (onePixel badPaletteColor) 0 0 (onePixel badPaletteColor)
      ≠ (onePixel badPaletteColor).px 0 0 := by
  refine ⟨fun _ _ => (by decide : isPaletteColor badPaletteColor = true), by decide, by decide, by decide⟩

/-- The result of the neighbour search is never the bad palette colour itself. -/
theorem neibScan_fst_ne_bad (im : Image) (x y : Int) :
    (neibScan im x y).1 ≠ badPaletteColor := by
  rcases neibScan_cases im x y with ⟨hr, _⟩ | ⟨l1, o, l2, _, hq, hr, _, _⟩
  · rw [hr]
    decide
  · rw [hr]
    simp only [qualifies, Bool.and_eq_true, decide_eq_true_eq] at hq
    exact hq.2

/-- C5, amended: on a raster each of whose pixels is a palette colour, fully transparent or
the boundary-marker colour, the cleanup run with that raster as both reference and stencil
leaves unchanged every palette-coloured pixel that is not within the tight tolerance of the
bad palette colour; a pixel that is exactly the bad palette colour is a bad-road colour there
and is replaced by `neibColor(im,x,y)`, a colour different from it. -/
theorem cleanup_keeps_palette (im : Image)
    (hconf : ∀ cx cy, inBounds im cx cy = true →
      isPaletteColor (im.px cy cx) = true ∨ im.px cy cx = transparent
        ∨ im.px cy cx = boundaryColor)
    (x y : Int) (_hin : inBounds im x y = true) :
    (isPaletteColor (im.px y x) = true → eqColor (im.px y x) badPaletteColor = false →
      replacementColor im x y im = im.px y x) ∧
    (im.px y x = badPaletteColor →
      isBadRoadColor im x y im = true ∧
      replacementColor im x y im = neibColor im x y ∧
      replacementColor im x y im ≠ im.px y x) := by
  have hbp : boundaryPoint im x y = false := by
    apply boundaryPoint_false_of_no_inner
    intro cx cy hin
    rcases hconf cx cy hin with h | h | h
    · exact palette_not_inner _ h
    · rw [h]; decide
    · rw [h]; decide
  constructor
  · intro hp hnb
    unfold replacementColor isBadRoadColor
    rw [hbp, hp, hnb]
    simp
  · intro hbad
    have hroad : isBadRoadColor im x y im = true := by
      unfold isBadRoadColor
      rw [hbad]
      decide
    have hrep : replacementColor im x y im = neibColor im x y := by
      unfold replacementColor
      rw [hbp, hroad]
      simp
    refine ⟨hroad, hrep, ?_⟩
    rw [hrep, hbad]
    exact neibScan_fst_ne_bad im x y

theorem blueBadRow_conforming (cx cy : Int) (_h : inBounds blueBadRow cx cy = true) :
    isPaletteColor (blueBadRow.px cy cx) = true ∨ blueBadRow.px cy cx = transparent
      ∨ blueBadRow.px cy cx = boundaryColor := by
  left
  simp only [blueBadRow]
  split_ifs <;> decide

/-- Witness of the amended C5 on the row `[legend colour, bad palette colour]`: the legend
pixel is kept and the bad-coloured pixel is replaced by its neighbour. -/
theorem cleanup_keeps_palette_witness :
    replacementColor blueBadRow 0 0 blueBadRow = legendBlue ∧
    replacementColor blueBadRow 1 0 blueBadRow = neibColor blueBadRow 1 0 ∧
    neibColor blueBadRow 1 0 = legendBlue :=
  ⟨(cleanup_keeps_palette blueBadRow blueBadRow_conforming 0 0 (by decide)).1
      (by decide) (by decide),
   ((cleanup_keeps_palette blueBadRow blueBadRow_conforming 1 0 (by decide)).2
      (by decide)).2.1,
   by decide⟩

/-- C6 at the failing input: the pixel `(0,68,137,255)` equals the bad palette colour under
the tight tolerance, the stencil pixel is within tolerance 50 of it and the pixel is not a
boundary point, yet `replacementColor` returns the pixel's own colour: the neighbour search
excludes the bad colour by exact comparison and so accepts the pixel itself at offset
`(0,0)`. -/
theorem replacementColor_near_bad_unchanged :
    inBounds (onePixel nearBadColor) 0 0 = true ∧
    boundaryPoint (onePixel nearBadColor) 0 0 = false ∧
    eqColor ((onePixel nearBadColor).px 0 0) badPaletteColor = true ∧
    eqColor ((onePixel badPaletteColor).px 0 0) badPaletteColor 50 = true ∧
    isBadRoadColor (onePixel nearBadColor) 0 0 (onePixel badPaletteColor) = true ∧
    neibColor (onePixel nearBadColor) 0 0 = (onePixel nearBadColor).px 0 0 ∧
    replacementColor (onePixel nearBadColor) 0 0 (onePixel badPaletteColor)
      = (onePixel nearBadColor).px 0 0 := by
  decide

/-! ## Claims on palette membership and kept black -/

/-- C11: `isPaletteColor(c)` holds exactly when some entry of the fixed 19-entry palette equals
`c` under `eqColor` with the tight tolerance `eps = 2`. -/
theorem isPaletteColor_iff_exists (c : Vec4b) :
    (isPaletteColor c = true ↔ ∃ p ∈ palette, eqColor p c 2 = true) ∧
    palette.length = 19 ∧ colorEps = 2 := by
  refine ⟨?_, rfl, rfl⟩
  rw [isPaletteColor_eq_any, List.any_eq_true]
  rfl

theorem keptBlackStep_eq (stencil : Image) (x y : Int) (h : Bool) (dx dy : Int) :
    keptBlackStep stencil x y h dx dy =
      (h || (inBounds stencil (x + dx) (y + dy) && eqColor (stencil.px (y + dy) (x + dx)) black 10)) := by
  unfold keptBlackStep
  by_cases hb : inBounds stencil (x + dx) (y + dy) = true <;> simp [hb]

theorem isKeptBlack_eq (im : Image) (x y : Int) (stencil : Image) :
    isKeptBlack im x y stencil =
      (eqColor (im.px y x) black &&
        !(scan4.any fun o =>
          inBounds stencil (x + o.1) (y + o.2) && eqColor (stencil.px (y + o.2) (x + o.1)) black 10)) := by
  have hflat : isKeptBlack im x y stencil =
      (eqColor (im.px y x) black &&
        !(scan4.foldl (fun st o => keptBlackStep stencil x y st o.1 o.2) false)) := rfl
  rw [hflat]
  have hstep : (fun (st : Bool) (o : Int × Int) => keptBlackStep stencil x y st o.1 o.2) =
      fun st o => st || (inBounds stencil (x + o.1) (y + o.2)
        && eqColor (stencil.px (y + o.2) (x + o.1)) black 10) := by
    funext st o
    exact keptBlackStep_eq stencil x y st o.1 o.2
  rw [hstep, foldl_or_eq_any]
  simp

/-- C17: for an in-bounds pixel, `isKeptBlack` holds exactly when the pixel equals black
`(0,0,0,255)` within the tight tolerance 2 and no in-bounds stencil pixel at `(x+dx, y+dy)`,
`dx, dy` in `{-2,-1,0,1}`, is within tolerance 10 of black. -/
theorem isKeptBlack_iff (im stencil : Image) (x y : Int) (_hin : inBounds im x y = true) :
    (isKeptBlack im x y stencil = true ↔
      eqColor (im.px y x) black 2 = true ∧
      ∀ dx ∈ offs4, ∀ dy ∈ offs4, inBounds stencil (x + dx) (y + dy) = true →
        eqColor (stencil.px (y + dy) (x + dx)) black 10 = false) ∧
    black = ⟨0, 0, 0, 255⟩ ∧ offs4 = [-2, -1, 0, 1] := by
  refine ⟨?_, rfl, rfl⟩
  rw [isKeptBlack_eq]
  simp only [Bool.and_eq_true, Bool.not_eq_true', List.any_eq_false, Bool.not_eq_true,
    Bool.and_eq_false_imp]
  constructor
  · rintro ⟨h1, h2⟩
    refine ⟨h1, ?_⟩
    intro dx hdx dy hdy hb
    cases hcol : eqColor (stencil.px (y + dy) (x + dx)) black 10
    · rfl
    · exact absurd ⟨hb, hcol⟩ (h2 (dx, dy) ((mem_scan4 dx dy).mpr ⟨hdx, hdy⟩))
  · rintro ⟨h1, h2⟩
    refine ⟨h1, ?_⟩
    rintro ⟨dx, dy⟩ ho ⟨hb, hcol⟩
    have hm := (mem_scan4 dx dy).mp ho
    have hf := h2 dx hm.1 dy hm.2 hb
    simp only at hcol
    rw [hf] at hcol
    exact Bool.false_ne_true hcol

/-- Witness of C17: a black pixel with a stencil that holds no black is kept. -/
theorem isKeptBlack_iff_witness :
    isKeptBlack (onePixel black) 0 0 (onePixel legendBlue) = true :=
  (isKeptBlack_iff (onePixel black) (onePixel legendBlue) 0 0 (by decide)).1.mpr
    ⟨by decide, by decide⟩

/-! ## The sweeps of `transformProjection` -/

/-- A loop nest over two lists is one loop over the pairs, first index outer. -/
theorem foldl_nest {σ α β : Type} (f : σ → α → β → σ) (la : List α) (lb : List β) :
    ∀ s : σ, la.foldl (fun s a => lb.foldl (fun s1 b => f s1 a b) s) s =
      (la.flatMap fun a => lb.map fun b => (a, b)).foldl (fun s k => f s k.1 k.2) s := by
  induction la with
  | nil => intro s; rfl
  | cons a la ih =>
    intro s
    rw [List.foldl_cons, ih, List.flatMap_cons, List.foldl_append, List.foldl_map]

theorem mem_pairs_range (H W y x : Nat) :
    (y, x) ∈ ((List.range H).flatMap fun a => (List.range W).map fun b => (a, b)) ↔
      y < H ∧ x < W := by
  simp only [List.mem_flatMap, List.mem_map, List.mem_range, Prod.mk.injEq]
  constructor
  · rintro ⟨a, ha, b, hb, rfl, rfl⟩
    exact ⟨ha, hb⟩
  · rintro ⟨ha, hb⟩
    exact ⟨y, ha, x, hb, rfl, rfl⟩

/-- A sweep that writes `v k` at the cells `k` of a list where `c k` holds: afterwards such a
cell holds `v k` and every other cell is as before. -/
theorem sweep_px (c : Nat → Nat → Bool) (v : Nat → Nat → Vec4b) (ks : List (Nat × Nat)) :
    ∀ (t : Image) (ty tx : Nat),
      (ks.foldl (fun t k => if c k.1 k.2 = true then t.set k.1 k.2 (v k.1 k.2) else t) t).px ty tx =
        if (ty, tx) ∈ ks ∧ c ty tx = true then v ty tx else t.px ty tx := by
  induction ks with
  | nil => intro t ty tx; simp
  | cons k ks ih =>
    intro t ty tx
    rw [List.foldl_cons, ih]
    obtain ⟨ky, kx⟩ := k
    by_cases hk : ky = ty ∧ kx = tx
    · obtain ⟨rfl, rfl⟩ := hk
      by_cases hc : c ky kx = true
      · simp [hc, Image.set]
      · simp [hc]
    · have hne : ¬ ((ty : Int) = (ky : Int) ∧ (tx : Int) = (kx : Int)) := by
        intro h
        exact hk ⟨by exact_mod_cast h.1.symm, by exact_mod_cast h.2.symm⟩
      have hne2 : ¬ (ty = ky ∧ tx = kx) := fun h => hk ⟨h.1.symm, h.2.symm⟩
      by_cases hc : c ky kx = true
      · simp [hc, Image.set, hne, hne2]
      · simp [hc, hne2]

theorem sweep_dims (c : Nat → Nat → Bool) (v : Nat → Nat → Vec4b) (ks : List (Nat × Nat)) :
    ∀ t : Image,
      (ks.foldl (fun t k => if c k.1 k.2 = true then t.set k.1 k.2 (v k.1 k.2) else t) t).rows = t.rows ∧
      (ks.foldl (fun t k => if c k.1 k.2 = true then t.set k.1 k.2 (v k.1 k.2) else t) t).cols = t.cols := by
  induction ks with
  | nil => intro t; simp
  | cons k ks ih =>
    intro t
    rw [List.foldl_cons]
    by_cases hc : c k.1 k.2 = true
    · simp only [hc, if_true]
      exact ih _
    · simp only [hc]
      exact ih _

theorem resample_eq (source : Image) (H W : Nat) (srcOf : Nat → Nat → Int × Int) :
    resample source H W srcOf =
      ((List.range H).flatMap fun a => (List.range W).map fun b => (a, b)).foldl
        (fun t k => if inBounds source (srcOf k.1 k.2).1 (srcOf k.1 k.2).2 = true then
          t.set k.1 k.2 (source.px (srcOf k.1 k.2).2 (srcOf k.1 k.2).1) else t)
        ⟨H, W, fun _ _ => transparent⟩ := by
  unfold resample
  rw [foldl_nest]
  rfl

theorem resample_px (source : Image) (H W : Nat) (srcOf : Nat → Nat → Int × Int)
    (ty tx : Nat) (hty : ty < H) (htx : tx < W) :
    (resample source H W srcOf).px ty tx =
      if inBounds source (srcOf ty tx).1 (srcOf ty tx).2 = true then
        source.px (srcOf ty tx).2 (srcOf ty tx).1
      else transparent := by
  rw [resample_eq,
    sweep_px (fun a b => inBounds source (srcOf a b).1 (srcOf a b).2)
      (fun a b => source.px (srcOf a b).2 (srcOf a b).1)]
  simp [mem_pairs_range, hty, htx]

/-- C15: in the resampling sweep a target pixel whose source coordinate lies in the source
raster is exactly that source pixel, and any other target pixel is fully transparent; the
result does not depend on anything outside the source raster (no out-of-bounds read), and
`sourceXpx = source.cols` gives a transparent pixel. -/
theorem resample_in_bounds_or_transparent (source : Image) (targetHeight targetWidth : Nat)
    (srcOf : Nat → Nat → Int × Int) (ty tx : Nat)
    (hty : ty < targetHeight) (htx : tx < targetWidth) :
    ((0 ≤ (srcOf ty tx).1 ∧ (srcOf ty tx).1 < source.cols ∧
        0 ≤ (srcOf ty tx).2 ∧ (srcOf ty tx).2 < source.rows) →
      (resample source targetHeight targetWidth srcOf).px ty tx =
        source.px (srcOf ty tx).2 (srcOf ty tx).1) ∧
    (¬ (0 ≤ (srcOf ty tx).1 ∧ (srcOf ty tx).1 < source.cols ∧
        0 ≤ (srcOf ty tx).2 ∧ (srcOf ty tx).2 < source.rows) →
      (resample source targetHeight targetWidth srcOf).px ty tx = transparent) ∧
    ((srcOf ty tx).1 = source.cols →
      (resample source targetHeight targetWidth srcOf).px ty tx = transparent) ∧
    (∀ other : Image, other.rows = source.rows → other.cols = source.cols →
      (∀ sx sy, inBounds source sx sy = true → other.px sy sx = source.px sy sx) →
      (resample other targetHeight targetWidth srcOf).px ty tx =
        (resample source targetHeight targetWidth srcOf).px ty tx) ∧
    transparent = ⟨0, 0, 0, 0⟩ := by
  have hb : ∀ s : Image, inBounds s (srcOf ty tx).1 (srcOf ty tx).2 = true ↔
      (0 ≤ (srcOf ty tx).1 ∧ (srcOf ty tx).1 < s.cols ∧
        0 ≤ (srcOf ty tx).2 ∧ (srcOf ty tx).2 < s.rows) := by
    intro s
    simp [inBounds, and_assoc]
  refine ⟨?_, ?_, ?_, ?_, rfl⟩
  · intro h
    rw [resample_px source _ _ srcOf ty tx hty htx, if_pos ((hb source).mpr h)]
  · intro h
    rw [resample_px source _ _ srcOf ty tx hty htx, if_neg (fun hc => h ((hb source).mp hc))]
  · intro h
    rw [resample_px source _ _ srcOf ty tx hty htx, if_neg]
    intro hc
    have := ((hb source).mp hc).2.1
    omega
  · intro other hr hc hag
    rw [resample_px source _ _ srcOf ty tx hty htx, resample_px other _ _ srcOf ty tx hty htx]
    have hsame : inBounds other (srcOf ty tx).1 (srcOf ty tx).2
        = inBounds source (srcOf ty tx).1 (srcOf ty tx).2 := by
      simp [inBounds, hr, hc]
    rw [hsame]
    by_cases hin : inBounds source (srcOf ty tx).1 (srcOf ty tx).2 = true
    · rw [if_pos hin, if_pos hin, hag _ _ hin]
    · rw [if_neg hin, if_neg hin]

/-- Witness of C15: with the 4x4 patch as source, target pixel `(1,0)` maps to source column 4,
one past the width, and is transparent. -/
theorem resample_in_bounds_or_transparent_witness :
    (resample tiePatch 2 2 shiftBy3).px 0 1 = transparent :=
  (resample_in_bounds_or_transparent tiePatch 2 2 shiftBy3 0 1 (by decide) (by decide)).2.2.1 rfl

theorem cleanup_fst (stencil : Image) (ks : List (Nat × Nat)) :
    ∀ st : Image × Image,
      (ks.foldl (fun st k => cleanupStep stencil st k.1 k.2) st).1 = st.1 := by
  induction ks with
  | nil => intro st; rfl
  | cons k ks ih => intro st; rw [List.foldl_cons, ih]; rfl

theorem cleanup_snd (stencil : Image) (ks : List (Nat × Nat)) :
    ∀ st : Image × Image,
      (ks.foldl (fun st k => cleanupStep stencil st k.1 k.2) st).2 =
        ks.foldl (fun t k => if (fun (_ _ : Nat) => true) k.1 k.2 = true then
          t.set k.1 k.2 ((fun (a b : Nat) => replacementColor st.1 (b : Int) (a : Int) stencil) k.1 k.2)
          else t) st.2 := by
  induction ks with
  | nil => intro st; rfl
  | cons k ks ih =>
    intro st
    rw [List.foldl_cons, List.foldl_cons, ih]
    rfl

/-- C16: the cleanup pass returns a raster of the dimensions of the resampled raster in which
every pixel `(x,y)` is `replacementColor(target,x,y,stencil)` evaluated on the resampled raster
as it was before the pass, and the resampled raster itself is left unchanged. -/
theorem cleanup_reads_original (target stencil : Image) :
    (cleanup target stencil).2.rows = target.rows ∧
    (cleanup target stencil).2.cols = target.cols ∧
    (∀ x y : Nat, x < target.cols → y < target.rows →
      (cleanup target stencil).2.px y x = replacementColor target x y stencil) ∧
    (cleanup target stencil).1 = target := by
  have hflat : cleanup target stencil =
      ((List.range target.rows).flatMap fun a => (List.range target.cols).map fun b => (a, b)).foldl
        (fun st k => cleanupStep stencil st k.1 k.2) (target, target) := by
    unfold cleanup
    rw [foldl_nest]
  rw [hflat, cleanup_snd, cleanup_fst]
  have hd := sweep_dims (fun (_ _ : Nat) => true)
    (fun (a b : Nat) => replacementColor target (b : Int) (a : Int) stencil)
    ((List.range target.rows).flatMap fun a => (List.range target.cols).map fun b => (a, b)) target
  refine ⟨hd.1, hd.2, ?_, rfl⟩
  intro x y hx hy
  rw [sweep_px (fun (_ _ : Nat) => true)
    (fun (a b : Nat) => replacementColor target (b : Int) (a : Int) stencil)]
  simp [mem_pairs_range, hx, hy]

/-! ## Vectors of counters and `makeCumulative` -/

theorem length_addAt (v : List Int) : ∀ (i : Nat) (d : Int), (addAt v i d).length = v.length := by
  induction v with
  | nil => intro i d; rfl
  | cons a t ih =>
    intro i d
    cases i with
    | zero => rfl
    | succ i => simp [addAt, ih]

theorem getD_addAt (v : List Int) :
    ∀ (i j : Nat) (d : Int),
      (addAt v i d).getD j 0 = v.getD j 0 + if i = j ∧ j < v.length then d else 0 := by
  induction v with
  | nil => intro i j d; simp [addAt]
  | cons a t ih =>
    intro i j d
    cases i with
    | zero =>
      cases j with
      | zero => simp [addAt]
      | succ j => simp [addAt]
    | succ i =>
      cases j with
      | zero => simp [addAt]
      | succ j =>
        have h := ih i j d
        simp only [addAt, List.getD_cons_succ, List.length_cons, Nat.add_lt_add_iff_right,
          Nat.add_right_cancel_iff]
        exact h

/-- Adding the values `g j`, `j` in `js`, to the cell `i`. -/
theorem length_addAt32 (v : List Int) :
    ∀ (i : Nat) (d : Int), (addAt32 v i d).length = v.length := by
  induction v with
  | nil => intro i d; rfl
  | cons a t ih =>
    intro i d
    cases i with
    | zero => rfl
    | succ i => simp [addAt32, ih]

theorem getD_addAt32 (v : List Int) :
    ∀ (i j : Nat) (d : Int),
      (addAt32 v i d).getD j 0 =
        if i = j ∧ j < v.length then wrap32 (v.getD j 0 + d) else v.getD j 0 := by
  induction v with
  | nil => intro i j d; simp [addAt32]
  | cons a t ih =>
    intro i j d
    cases i with
    | zero =>
      cases j with
      | zero => simp [addAt32]
      | succ j => simp [addAt32]
    | succ i =>
      cases j with
      | zero => simp [addAt32]
      | succ j =>
        have h := ih i j d
        simp only [addAt32, List.getD_cons_succ, List.length_cons, Nat.add_lt_add_iff_right,
          Nat.add_right_cancel_iff]
        exact h

/-- Wrapping after each addition gives the wrapped exact sum. -/
theorem wrap32_add (a b : Int) : wrap32 (wrap32 a + b) = wrap32 (a + b) := by
  unfold wrap32
  omega

theorem wrap32_of_range (z : Int) (h1 : -2147483648 ≤ z) (h2 : z < 2147483648) :
    wrap32 z = z := by
  unfold wrap32
  omega

theorem wrap32_range (z : Int) : -2147483648 ≤ wrap32 z ∧ wrap32 z < 2147483648 := by
  unfold wrap32
  omega

theorem foldl_wrap32 (g : Int → Int) (js : List Int) :
    ∀ a : Int, js.foldl (fun acc j => wrap32 (acc + g j)) (wrap32 a) =
      wrap32 (a + (js.map g).sum) := by
  induction js with
  | nil => intro a; simp
  | cons j js ih =>
    intro a
    rw [List.foldl_cons, ih, add_assoc, wrap32_add, List.map_cons, List.sum_cons]

/-- Adding the values `g j`, `j` in `js`, to the cell `i`, in 32-bit arithmetic. -/
theorem foldl_addAt32 (g : Int → Int) (i : Nat) (js : List Int) :
    ∀ r : List Int,
      (js.foldl (fun r1 j => addAt32 r1 i (g j)) r).length = r.length ∧
      ∀ k : Nat, (js.foldl (fun r1 j => addAt32 r1 i (g j)) r).getD k 0 =
        if i = k ∧ k < r.length then
          js.foldl (fun acc j => wrap32 (acc + g j)) (r.getD k 0)
        else r.getD k 0 := by
  induction js with
  | nil => intro r; simp
  | cons j js ih =>
    intro r
    rw [List.foldl_cons]
    obtain ⟨hl, hg⟩ := ih (addAt32 r i (g j))
    refine ⟨by rw [hl, length_addAt32], ?_⟩
    intro k
    rw [hg k, getD_addAt32, length_addAt32, List.foldl_cons]
    by_cases h : i = k ∧ k < r.length
    · rw [if_pos h, if_pos h, if_pos h]
    · rw [if_neg h, if_neg h, if_neg h]

/-- The loop nest of `makeCumulative` over any duplicate-free list of cells. -/
theorem foldl_foldl_addAt32 (g : Nat → Int → Int) (js : List Int) (is : List Nat)
    (hnd : is.Nodup) :
    ∀ r : List Int,
      (is.foldl (fun r0 i => js.foldl (fun r1 j => addAt32 r1 i (g i j)) r0) r).length
        = r.length ∧
      ∀ k : Nat,
        (is.foldl (fun r0 i => js.foldl (fun r1 j => addAt32 r1 i (g i j)) r0) r).getD k 0 =
          if k ∈ is ∧ k < r.length then
            js.foldl (fun acc j => wrap32 (acc + g k j)) (r.getD k 0)
          else r.getD k 0 := by
  induction is with
  | nil => intro r; simp
  | cons i is ih =>
    intro r
    rw [List.foldl_cons]
    obtain ⟨hni, hnd'⟩ := List.nodup_cons.mp hnd
    obtain ⟨hl, hg⟩ := ih hnd' (js.foldl (fun r1 j => addAt32 r1 i (g i j)) r)
    obtain ⟨hl1, hg1⟩ := foldl_addAt32 (g i) i js r
    refine ⟨by rw [hl, hl1], ?_⟩
    intro k
    rw [hg k, hg1 k, hl1]
    by_cases hik : i = k
    · subst hik
      by_cases hk : i < r.length
      · simp [hni, hk]
      · simp [hk]
    · have hki : ¬ k = i := fun h => hik h.symm
      simp [hik, hki]

theorem clampPos_eq (n : Nat) (pos : Int) (hn : 0 < n) :
    clampPos n pos = max 0 (min pos ((n : Int) - 1)) := by
  unfold clampPos
  simp only
  split_ifs <;> omega

theorem avgOffsets_toFinset : avgOffsets.toFinset = Finset.Icc (-50 : Int) 50 := by
  ext j
  simp only [avgOffsets, avgStep, List.mem_toFinset, List.mem_map, List.mem_range, Finset.mem_Icc]
  constructor
  · rintro ⟨t, ht, rfl⟩
    omega
  · rintro ⟨h1, h2⟩
    exact ⟨(j + 50).toNat, by omega, by omega⟩

theorem avgOffsets_nodup : avgOffsets.Nodup := by
  unfold avgOffsets
  apply List.Nodup.map
  · intro a b h
    simp only at h
    omega
  · exact List.nodup_range 101

theorem makeCumulative_length (v : List Int) : (makeCumulative v).length = v.length := by
  unfold makeCumulative
  rw [(foldl_foldl_addAt32 _ avgOffsets (List.range v.length) (List.nodup_range _) _).1]
  simp

theorem makeCumulative_getD (v : List Int) (i : Nat) (hi : i < v.length) :
    (makeCumulative v).getD i 0 = wrap32
      (avgOffsets.map fun j => v.getD (clampPos v.length ((i : Int) + j)).toNat 0).sum := by
  unfold makeCumulative
  rw [(foldl_foldl_addAt32 (fun i j => v.getD (clampPos v.length ((i : Int) + j)).toNat 0)
    avgOffsets (List.range v.length) (List.nodup_range _) _).2 i]
  have h0 : (List.replicate v.length (0 : Int)).getD i 0 = wrap32 0 := by
    rw [List.getD_eq_getElem _ _ (by simpa using hi)]
    simp [wrap32]
  rw [if_pos ⟨List.mem_range.mpr hi, by simpa using hi⟩, h0, foldl_wrap32, zero_add]

set_option maxRecDepth 100000 in
/-- C18, as stated, fails: on the one-entry vector `[30000000]` the 101 terms sum to
3030000000, which no `int` holds, and `makeCumulative` returns `[-1264967296]`. -/
theorem makeCumulative_overflow :
    makeCumulative [30000000] = [-1264967296] ∧
    (∑ j ∈ Finset.Icc (-50 : Int) 50,
      ([30000000] : List Int).getD (max 0 (min ((0 : Int) + j) ((1 : Int) - 1))).toNat 0)
      = 3030000000 ∧
    (makeCumulative [30000000]).getD 0 0 ≠
      ∑ j ∈ Finset.Icc (-50 : Int) 50,
        ([30000000] : List Int).getD (max 0 (min ((0 : Int) + j) ((1 : Int) - 1))).toNat 0 := by
  have h : ∀ j ∈ Finset.Icc (-50 : Int) 50,
      ([30000000] : List Int).getD (max 0 (min ((0 : Int) + j) ((1 : Int) - 1))).toNat 0
        = 30000000 := by
    intro j _
    have : (max 0 (min ((0 : Int) + j) ((1 : Int) - 1))).toNat = 0 := by omega
    rw [this]
    rfl
  have hsum : (∑ j ∈ Finset.Icc (-50 : Int) 50,
      ([30000000] : List Int).getD (max 0 (min ((0 : Int) + j) ((1 : Int) - 1))).toNat 0)
      = 3030000000 := by
    rw [Finset.sum_congr rfl h]
    simp
  refine ⟨by decide, hsum, ?_⟩
  rw [hsum]
  decide

/-- C18, amended: `makeCumulative(v)` has the length `n` of `v`, and its entry `i` is the sum
over `j` from -50 to 50 (101 terms) of `v[clamp(i+j, 0, n-1)]` as a 32-bit `int` holds it
(wrapped into `[-2^31, 2^31)`), hence that sum itself whenever the sum lies in the range of
`int`; the empty vector gives the empty vector. -/
theorem makeCumulative_spec (v : List Int) :
    (makeCumulative v).length = v.length ∧
    (∀ i : Nat, i < v.length →
      (makeCumulative v).getD i 0 =
        wrap32 (∑ j ∈ Finset.Icc (-50 : Int) 50,
          v.getD (max 0 (min ((i : Int) + j) ((v.length : Int) - 1))).toNat 0)) ∧
    (∀ i : Nat, i < v.length →
      -2147483648 ≤ (∑ j ∈ Finset.Icc (-50 : Int) 50,
          v.getD (max 0 (min ((i : Int) + j) ((v.length : Int) - 1))).toNat 0) →
      (∑ j ∈ Finset.Icc (-50 : Int) 50,
          v.getD (max 0 (min ((i : Int) + j) ((v.length : Int) - 1))).toNat 0) < 2147483648 →
      (makeCumulative v).getD i 0 =
        ∑ j ∈ Finset.Icc (-50 : Int) 50,
          v.getD (max 0 (min ((i : Int) + j) ((v.length : Int) - 1))).toNat 0) ∧
    (∀ z : Int, -2147483648 ≤ wrap32 z ∧ wrap32 z < 2147483648 ∧
      (4294967296 : Int) ∣ z - wrap32 z) ∧
    (Finset.Icc (-50 : Int) 50).card = 101 ∧
    makeCumulative [] = [] := by
  have hsum : ∀ i : Nat, i < v.length →
      (makeCumulative v).getD i 0 =
        wrap32 (∑ j ∈ Finset.Icc (-50 : Int) 50,
          v.getD (max 0 (min ((i : Int) + j) ((v.length : Int) - 1))).toNat 0) := by
    intro i hi
    rw [makeCumulative_getD v i hi, ← avgOffsets_toFinset,
      List.sum_toFinset _ avgOffsets_nodup]
    congr 2
    apply List.map_congr_left
    intro j _
    rw [clampPos_eq _ _ (by omega)]
  refine ⟨makeCumulative_length v, hsum, ?_, ?_, by decide, rfl⟩
  · intro i hi h1 h2
    rw [hsum i hi, wrap32_of_range _ h1 h2]
  · intro z
    refine ⟨(wrap32_range z).1, (wrap32_range z).2, ?_⟩
    unfold wrap32
    omega

/-! ## The histograms of `detectCenter` -/

/-- A loop that increments the cell `idx k` for the `k` with `p k`. -/
theorem foldl_incr {α : Type} (p : α → Bool) (idx : α → Nat) (ks : List α) :
    ∀ v : List Int,
      (ks.foldl (fun v k => if p k = true then addAt v (idx k) 1 else v) v).length = v.length ∧
      ∀ j : Nat, j < v.length →
        (ks.foldl (fun v k => if p k = true then addAt v (idx k) 1 else v) v).getD j 0 =
          v.getD j 0 + (ks.countP fun k => p k && decide (idx k = j) : Nat) := by
  induction ks with
  | nil => intro v; simp
  | cons k ks ih =>
    intro v
    rw [List.foldl_cons]
    by_cases hp : p k = true
    · rw [if_pos hp]
      obtain ⟨hl, hg⟩ := ih (addAt v (idx k) 1)
      refine ⟨by rw [hl, length_addAt], ?_⟩
      intro j hj
      rw [hg j (by rw [length_addAt]; exact hj), getD_addAt, List.countP_cons]
      by_cases hij : idx k = j
      · simp [hp, hij, hj]
        ring
      · simp [hp, hij]
    · rw [if_neg hp]
      obtain ⟨hl, hg⟩ := ih v
      refine ⟨hl, ?_⟩
      intro j hj
      rw [hg j hj, List.countP_cons]
      simp [hp]

theorem countP_range_eq (q : Nat → Bool) (j W : Nat) :
    (List.range W).countP (fun b => q b && decide (b = j)) = if j < W ∧ q j = true then 1 else 0 := by
  induction W with
  | zero => simp
  | succ W ih =>
    rw [List.range_succ, List.countP_append, ih]
    by_cases hj : j < W
    · have h1 : ¬ W = j := by omega
      have h2 : j < W + 1 := by omega
      simp [hj, h1, h2]
    · by_cases hjw : W = j
      · subst hjw
        by_cases hq : q W = true <;> simp [hq]
      · have h2 : ¬ j < W + 1 := by omega
        simp [hj, hjw, h2]

theorem countP_pairs_snd (q : Nat → Nat → Bool) (j W : Nat) (hj : j < W) (la : List Nat) :
    (la.flatMap fun a => (List.range W).map fun b => (a, b)).countP
        (fun k => q k.1 k.2 && decide (k.2 = j)) = la.countP fun a => q a j := by
  induction la with
  | nil => rfl
  | cons a la ih =>
    rw [List.flatMap_cons, List.countP_append, ih, List.countP_map, List.countP_cons]
    have h := countP_range_eq (q a) j W
    have hfun : ((fun k : Nat × Nat => q k.1 k.2 && decide (k.2 = j)) ∘ fun b => (a, b)) =
        fun b => q a b && decide (b = j) := rfl
    rw [hfun, h]
    by_cases hq : q a j = true <;> simp [hq, hj, Nat.add_comm]

theorem countP_pairs_fst (q : Nat → Nat → Bool) (i W : Nat) (la : List Nat) :
    (la.flatMap fun a => (List.range W).map fun b => (a, b)).countP
        (fun k => q k.1 k.2 && decide (k.1 = i)) =
      la.count i * (List.range W).countP fun b => q i b := by
  induction la with
  | nil => simp
  | cons a la ih =>
    rw [List.flatMap_cons, List.countP_append, ih, List.countP_map, List.count_cons]
    have hfun : ((fun k : Nat × Nat => q k.1 k.2 && decide (k.1 = i)) ∘ fun b => (a, b)) =
        fun b => q a b && decide (a = i) := rfl
    rw [hfun]
    by_cases hai : a = i
    · subst hai
      simp
      ring
    · simp [hai]

theorem hist_cntLineX (im : Image) (ks : List (Nat × Nat)) :
    ∀ h : Hist, (ks.foldl (fun h k => histStep im h k.1 k.2) h).cntLineX =
      ks.foldl (fun v k => if eqColor (im.px k.1 k.2) lineColor 10 = true then addAt v k.2 1 else v)
        h.cntLineX := by
  induction ks with
  | nil => intro h; rfl
  | cons k ks ih =>
    intro h
    rw [List.foldl_cons, List.foldl_cons, ih]
    congr 1
    unfold histStep
    by_cases h1 : eqColor (im.px k.1 k.2) backgroundOuter 10 = true <;>
      by_cases h2 : eqColor (im.px k.1 k.2) lineColor 10 = true <;> simp [h1, h2]

theorem hist_cntLineY (im : Image) (ks : List (Nat × Nat)) :
    ∀ h : Hist, (ks.foldl (fun h k => histStep im h k.1 k.2) h).cntLineY =
      ks.foldl (fun v k => if eqColor (im.px k.1 k.2) lineColor 10 = true then addAt v k.1 1 else v)
        h.cntLineY := by
  induction ks with
  | nil => intro h; rfl
  | cons k ks ih =>
    intro h
    rw [List.foldl_cons, List.foldl_cons, ih]
    congr 1
    unfold histStep
    by_cases h1 : eqColor (im.px k.1 k.2) backgroundOuter 10 = true <;>
      by_cases h2 : eqColor (im.px k.1 k.2) lineColor 10 = true <;> simp [h1, h2]

theorem hist_cntBgX (im : Image) (ks : List (Nat × Nat)) :
    ∀ h : Hist, (ks.foldl (fun h k => histStep im h k.1 k.2) h).cntBgX =
      ks.foldl (fun v k => if eqColor (im.px k.1 k.2) backgroundOuter 10 = true then addAt v k.2 1 else v)
        h.cntBgX := by
  induction ks with
  | nil => intro h; rfl
  | cons k ks ih =>
    intro h
    rw [List.foldl_cons, List.foldl_cons, ih]
    congr 1
    unfold histStep
    by_cases h1 : eqColor (im.px k.1 k.2) backgroundOuter 10 = true <;>
      by_cases h2 : eqColor (im.px k.1 k.2) lineColor 10 = true <;> simp [h1, h2]

theorem hist_cntBgY (im : Image) (ks : List (Nat × Nat)) :
    ∀ h : Hist, (ks.foldl (fun h k => histStep im h k.1 k.2) h).cntBgY =
      ks.foldl (fun v k => if eqColor (im.px k.1 k.2) backgroundOuter 10 = true then addAt v k.1 1 else v)
        h.cntBgY := by
  induction ks with
  | nil => intro h; rfl
  | cons k ks ih =>
    intro h
    rw [List.foldl_cons, List.foldl_cons, ih]
    congr 1
    unfold histStep
    by_cases h1 : eqColor (im.px k.1 k.2) backgroundOuter 10 = true <;>
      by_cases h2 : eqColor (im.px k.1 k.2) lineColor 10 = true <;> simp [h1, h2]

theorem histograms_flat (im : Image) :
    histograms im =
      ((List.range im.rows).flatMap fun a => (List.range im.cols).map fun b => (a, b)).foldl
        (fun h k => histStep im h k.1 k.2)
        ⟨List.replicate im.cols 0, List.replicate im.rows 0,
         List.replicate im.cols 0, List.replicate im.rows 0⟩ := by
  unfold histograms
  rw [foldl_nest]

/-- The histograms of `detectCenter` are the per-column and per-row counts of line-coloured
and of outer-background pixels. -/
theorem histograms_spec (im : Image) :
    ((histograms im).cntLineX.length = im.cols ∧
      ∀ x < im.cols, (histograms im).cntLineX.getD x 0 = (colCount im lineColor x : Int)) ∧
    ((histograms im).cntLineY.length = im.rows ∧
      ∀ y < im.rows, (histograms im).cntLineY.getD y 0 = (rowCount im lineColor y : Int)) ∧
    ((histograms im).cntBgX.length = im.cols ∧
      ∀ x < im.cols, (histograms im).cntBgX.getD x 0 = (colCount im backgroundOuter x : Int)) ∧
    ((histograms im).cntBgY.length = im.rows ∧
      ∀ y < im.rows, (histograms im).cntBgY.getD y 0 = (rowCount im backgroundOuter y : Int)) := by
  rw [histograms_flat, hist_cntLineX, hist_cntLineY, hist_cntBgX, hist_cntBgY]
  refine ⟨⟨?_, ?_⟩, ⟨?_, ?_⟩, ⟨?_, ?_⟩, ⟨?_, ?_⟩⟩
  · rw [(foldl_incr _ _ _ _).1]; simp
  · intro x hx
    rw [(foldl_incr _ _ _ _).2 x (by simpa using hx),
      countP_pairs_snd (fun a b => eqColor (im.px a b) lineColor 10) x im.cols hx]
    simp [colCount]
  · rw [(foldl_incr _ _ _ _).1]; simp
  · intro y hy
    rw [(foldl_incr _ _ _ _).2 y (by simpa using hy),
      countP_pairs_fst (fun a b => eqColor (im.px a b) lineColor 10) y im.cols]
    simp [rowCount, List.count_eq_one_of_mem (List.nodup_range _) (List.mem_range.mpr hy)]
  · rw [(foldl_incr _ _ _ _).1]; simp
  · intro x hx
    rw [(foldl_incr _ _ _ _).2 x (by simpa using hx),
      countP_pairs_snd (fun a b => eqColor (im.px a b) backgroundOuter 10) x im.cols hx]
    simp [colCount]
  · rw [(foldl_incr _ _ _ _).1]; simp
  · intro y hy
    rw [(foldl_incr _ _ _ _).2 y (by simpa using hy),
      countP_pairs_fst (fun a b => eqColor (im.px a b) backgroundOuter 10) y im.cols]
    simp [rowCount, List.count_eq_one_of_mem (List.nodup_range _) (List.mem_range.mpr hy)]

/-! ## The candidate loops of `detectCenter` -/

theorem foldl_max_spec (t : List Int) :
    ∀ a : Int,
      (t.foldl (fun m v => if m < v then v else m) a ∈ a :: t) ∧
      ∀ v ∈ a :: t, v ≤ t.foldl (fun m v => if m < v then v else m) a := by
  induction t with
  | nil => intro a; simp
  | cons b t ih =>
    intro a
    rw [List.foldl_cons]
    obtain ⟨hm, hle⟩ := ih (if a < b then b else a)
    constructor
    · rcases List.mem_cons.mp hm with h | h
      · rw [h]
        split_ifs <;> simp
      · exact List.mem_cons_of_mem _ (List.mem_cons_of_mem _ h)
    · intro v hv
      have h0 := hle (if a < b then b else a) (List.mem_cons_self _ _)
      rcases List.mem_cons.mp hv with rfl | hv
      · refine le_trans ?_ h0
        split_ifs <;> omega
      · rcases List.mem_cons.mp hv with rfl | hv
        · refine le_trans ?_ h0
          split_ifs <;> omega
        · exact hle v (List.mem_cons_of_mem _ hv)

theorem maxElement_spec (l : List Int) (m : Int) (h : maxElement l = some m) :
    m ∈ l ∧ ∀ v ∈ l, v ≤ m := by
  cases l with
  | nil => simp [maxElement] at h
  | cons a t =>
    simp only [maxElement, Option.some.injEq] at h
    rw [← h]
    exact foldl_max_spec t a

theorem maxElement_isSome (l : List Int) (h : l ≠ []) : ∃ m, maxElement l = some m := by
  cases l with
  | nil => exact absurd rfl h
  | cons a t => exact ⟨_, rfl⟩

theorem foldl_cond_eq_filter {σ α : Type} (p : α → Bool) (f : σ → α → σ) (l : List α) :
    ∀ s : σ, l.foldl (fun s x => if p x = true then f s x else s) s = (l.filter p).foldl f s := by
  induction l with
  | nil => intro s; rfl
  | cons a l ih =>
    intro s
    rw [List.foldl_cons, ih]
    by_cases hp : p a = true
    · rw [List.filter_cons_of_pos hp, if_pos hp, List.foldl_cons]
    · rw [List.filter_cons_of_neg hp, if_neg hp]

/-- Body of a candidate loop at an index that passed the candidate test. -/
theorem candStep_eq (cnt : List Int) (m : Int) (cum : List Int) :
    candStep cnt m cum = fun s x =>
      if isCandidate cnt m x = true then
        ({ res := if cum.getD x 0 < cum.getD s.res 0 then x else s.res
           prev := (x : Int)
           deltas := if s.prev ≠ -1 then mapIncr s.deltas ((x : Int) - s.prev) else s.deltas } : Scan)
      else s := by
  funext s x
  rfl

/-- The running minimum of a candidate loop over any list of indices: either `result` is as
on entry and no candidate is strictly below it, or it is the first candidate of least smoothed
background count, which is strictly below the entry value. -/
theorem candFold_res (cnt : List Int) (m : Int) (cum : List Int) (l : List Nat) :
    ∀ s : Scan,
      ((l.foldl (candStep cnt m cum) s).res = s.res ∧
        ∀ x ∈ l, isCandidate cnt m x = true → cum.getD s.res 0 ≤ cum.getD x 0) ∨
      (∃ l1 x l2, l = l1 ++ x :: l2 ∧ isCandidate cnt m x = true ∧
        cum.getD x 0 < cum.getD s.res 0 ∧ (l.foldl (candStep cnt m cum) s).res = x ∧
        (∀ x' ∈ l1, isCandidate cnt m x' = true → cum.getD x 0 < cum.getD x' 0) ∧
        (∀ x' ∈ l2, isCandidate cnt m x' = true → cum.getD x 0 ≤ cum.getD x' 0)) := by
  induction l with
  | nil => intro s; left; simp
  | cons a l ih =>
    intro s
    rw [List.foldl_cons]
    by_cases hc : isCandidate cnt m a = true
    · by_cases hlt : cum.getD a 0 < cum.getD s.res 0
      · have hres : (candStep cnt m cum s a).res = a := by
          rw [candStep_eq]; simp only [hc, if_true, if_pos hlt]
        rcases ih (candStep cnt m cum s a) with ⟨hr, hall⟩ | ⟨l1, x, l2, hl, hq, hx, hr, h1, h2⟩
        · right
          rw [hres] at hr hall
          exact ⟨[], a, l, rfl, hc, hlt, hr, by simp, hall⟩
        · right
          rw [hres] at hx
          refine ⟨a :: l1, x, l2, by simp [hl], hq, lt_trans hx hlt, hr, ?_, h2⟩
          intro x' hx' hq'
          rcases List.mem_cons.mp hx' with rfl | hm
          · exact hx
          · exact h1 x' hm hq'
      · have hres : (candStep cnt m cum s a).res = s.res := by
          rw [candStep_eq]; simp only [hc, if_true, if_neg hlt]
        rcases ih (candStep cnt m cum s a) with ⟨hr, hall⟩ | ⟨l1, x, l2, hl, hq, hx, hr, h1, h2⟩
        · left
          rw [hres] at hr hall
          refine ⟨hr, ?_⟩
          intro x hx hq
          rcases List.mem_cons.mp hx with rfl | hm
          · exact not_lt.mp hlt
          · exact hall x hm hq
        · right
          rw [hres] at hx
          refine ⟨a :: l1, x, l2, by simp [hl], hq, hx, hr, ?_, h2⟩
          intro x' hx' hq'
          rcases List.mem_cons.mp hx' with rfl | hm
          · exact lt_of_lt_of_le hx (not_lt.mp hlt)
          · exact h1 x' hm hq'
    · have hst : candStep cnt m cum s a = s := by simp [candStep, hc]
      rw [hst]
      rcases ih s with ⟨hr, hall⟩ | ⟨l1, x, l2, hl, hq, hx, hr, h1, h2⟩
      · left
        refine ⟨hr, ?_⟩
        intro x hx hq
        rcases List.mem_cons.mp hx with rfl | hm
        · exact absurd hq hc
        · exact hall x hm hq
      · right
        refine ⟨a :: l1, x, l2, by simp [hl], hq, hx, hr, ?_, h2⟩
        intro x' hx' hq'
        rcases List.mem_cons.mp hx' with rfl | hm
        · exact absurd hq' hc
        · exact h1 x' hm hq'

/-- The centre index chosen by a whole candidate loop. -/
theorem candScan_res (cnt : List Int) (m : Int) (cum : List Int) (D : List (Int × Int)) :
    ((∃ x < cnt.length, isCandidate cnt m x = true ∧ cum.getD x 0 < cum.getD 0 0) →
      (candScan cnt m cum D).res < cnt.length ∧
      isCandidate cnt m (candScan cnt m cum D).res = true ∧
      ∀ x < cnt.length, isCandidate cnt m x = true →
        cum.getD (candScan cnt m cum D).res 0 ≤ cum.getD x 0 ∧
        (cum.getD x 0 = cum.getD (candScan cnt m cum D).res 0 → (candScan cnt m cum D).res ≤ x)) ∧
    (¬ (∃ x < cnt.length, isCandidate cnt m x = true ∧ cum.getD x 0 < cum.getD 0 0) →
      (candScan cnt m cum D).res = 0) := by
  unfold candScan
  rcases candFold_res cnt m cum (List.range cnt.length) ⟨0, -1, D⟩ with
    ⟨hr, hall⟩ | ⟨l1, x, l2, hl, hq, hx, hr, h1, h2⟩
  · constructor
    · rintro ⟨x, hxl, hq, hlt⟩
      have := hall x (List.mem_range.mpr hxl) hq
      simp only at this
      omega
    · intro _
      exact hr
  · constructor
    · intro _
      rw [hr]
      have hmem : x ∈ List.range cnt.length := by rw [hl]; simp
      have hsorted : (List.range cnt.length).Pairwise (· < ·) := List.pairwise_lt_range _
      rw [hl] at hsorted
      have hp2 := (List.pairwise_cons.mp (List.pairwise_append.mp hsorted).2.1).1
      refine ⟨List.mem_range.mp hmem, hq, ?_⟩
      intro x' hx' hq'
      have hmem' : x' ∈ l1 ++ x :: l2 := by rw [← hl]; exact List.mem_range.mpr hx'
      rcases List.mem_append.mp hmem' with hin1 | hin2
      · have := h1 x' hin1 hq'
        exact ⟨le_of_lt this, fun heq => absurd heq (ne_of_gt this)⟩
      · rcases List.mem_cons.mp hin2 with rfl | hin3
        · exact ⟨le_refl _, fun _ => le_refl _⟩
        · exact ⟨h2 x' hin3 hq', fun _ => le_of_lt (hp2 x' hin3)⟩
    · intro hno
      exact absurd ⟨x, List.mem_range.mp (by rw [hl]; simp), hq, hx⟩ hno

/-! ## Claims on the centre and the candidates of `detectCenter` -/

/-! ## The single-precision scale -/

/-- The rounded quotient is within one half of the quotient. -/
theorem roundHalfEven_near (N D : Nat) (hD : 0 < D) :
    2 * (roundHalfEven N D * D) ≤ 2 * N + D ∧ 2 * N ≤ 2 * (roundHalfEven N D * D) + D := by
  have hd := Nat.div_add_mod N D
  have hm := Nat.mod_lt N hD
  unfold roundHalfEven
  simp only
  generalize N / D = q at *
  generalize N % D = r at *
  have hc : q * D = D * q := Nat.mul_comm _ _
  split_ifs
  · rw [hc]; omega
  · rw [Nat.add_mul, Nat.one_mul, hc]; omega
  · rw [hc]; omega
  · rw [Nat.add_mul, Nat.one_mul, hc]; omega

theorem two_zpow_toNat (s : Int) :
    ((2 : ℚ) ^ (-s).toNat) / ((2 : ℚ) ^ s.toNat) = (2 : ℚ) ^ (-s) := by
  rcases le_total 0 s with h | h
  · have h1 : (-s).toNat = 0 := by omega
    rw [h1, pow_zero, one_div, zpow_neg, ← zpow_natCast, Int.toNat_of_nonneg h]
  · have h1 : s.toNat = 0 := by omega
    rw [h1, pow_zero, div_one, ← zpow_natCast, Int.toNat_of_nonneg (by omega)]

/-- The binary exponent brackets the quotient. -/
theorem quotExp_spec (a b : Nat) (ha : 0 < a) (hb : 0 < b) :
    (2 : ℚ) ^ quotExp a b ≤ (a : ℚ) / b ∧ (a : ℚ) / b < (2 : ℚ) ^ (quotExp a b + 1) := by
  have hbq : (0 : ℚ) < b := by exact_mod_cast hb
  have haq : (0 : ℚ) < a := by exact_mod_cast ha
  have h2 : (2 : ℚ) ≠ 0 := by norm_num
  have la1 : ((2 : ℚ) ^ (Nat.log2 a : Int)) ≤ a := by
    rw [zpow_natCast]; exact_mod_cast Nat.log2_self_le (by omega)
  have la2 : (a : ℚ) < (2 : ℚ) ^ ((Nat.log2 a : Int) + 1) := by
    have := @Nat.lt_log2_self a
    have h : (a : ℚ) < ((2 ^ (Nat.log2 a + 1) : Nat) : ℚ) := by exact_mod_cast this
    rw [show ((Nat.log2 a : Int) + 1) = ((Nat.log2 a + 1 : Nat) : Int) by push_cast; ring,
      zpow_natCast]
    exact_mod_cast h
  have lb1 : ((2 : ℚ) ^ (Nat.log2 b : Int)) ≤ b := by
    rw [zpow_natCast]; exact_mod_cast Nat.log2_self_le (by omega)
  have lb2 : (b : ℚ) < (2 : ℚ) ^ ((Nat.log2 b : Int) + 1) := by
    have := @Nat.lt_log2_self b
    have h : (b : ℚ) < ((2 ^ (Nat.log2 b + 1) : Nat) : ℚ) := by exact_mod_cast this
    rw [show ((Nat.log2 b : Int) + 1) = ((Nat.log2 b + 1 : Nat) : Int) by push_cast; ring,
      zpow_natCast]
    exact_mod_cast h
  -- the test of `quotExp` compares the quotient with `2 ^ e0`
  have htest : ∀ e0 : Int, (b * 2 ^ e0.toNat ≤ a * 2 ^ (-e0).toNat) ↔
      (2 : ℚ) ^ e0 ≤ (a : ℚ) / b := by
    intro e0
    have hpos : (0 : ℚ) < 2 ^ e0.toNat := by positivity
    have hz : (2 : ℚ) ^ e0 = 2 ^ e0.toNat / 2 ^ (-e0).toNat := by
      have := two_zpow_toNat (-e0)
      rw [neg_neg] at this
      exact this.symm
    rw [hz, div_le_div_iff₀ (by positivity) hbq]
    constructor
    · intro h
      have : ((b * 2 ^ e0.toNat : Nat) : ℚ) ≤ ((a * 2 ^ (-e0).toNat : Nat) : ℚ) := by
        exact_mod_cast h
      push_cast at this
      linarith
    · intro h
      have : ((b * 2 ^ e0.toNat : Nat) : ℚ) ≤ ((a * 2 ^ (-e0).toNat : Nat) : ℚ) := by
        push_cast
        linarith
      exact_mod_cast this
  unfold quotExp
  simp only
  set e0 : Int := (Nat.log2 a : Int) - (Nat.log2 b : Int) with he0
  have hpb : (0 : ℚ) < (2 : ℚ) ^ ((Nat.log2 b : Int) + 1) := by positivity
  have hpb0 : (0 : ℚ) < (2 : ℚ) ^ (Nat.log2 b : Int) := by positivity
  split_ifs with ht
  · refine ⟨(htest e0).mp ht, ?_⟩
    -- a / b < 2^(la+1) / 2^lb
    have : (a : ℚ) / b < (2 : ℚ) ^ ((Nat.log2 a : Int) + 1) / (2 : ℚ) ^ (Nat.log2 b : Int) := by
      calc (a : ℚ) / b ≤ a / (2 : ℚ) ^ (Nat.log2 b : Int) :=
            div_le_div_of_nonneg_left (le_of_lt haq) hpb0 lb1
        _ < (2 : ℚ) ^ ((Nat.log2 a : Int) + 1) / (2 : ℚ) ^ (Nat.log2 b : Int) :=
            div_lt_div_of_pos_right la2 hpb0
    rw [← zpow_sub₀ h2] at this
    rw [show e0 + 1 = (Nat.log2 a : Int) + 1 - (Nat.log2 b : Int) by rw [he0]; ring]
    exact this
  · have hlt : (a : ℚ) / b < (2 : ℚ) ^ e0 := by
      by_contra hc
      exact ht ((htest e0).mpr (not_lt.mp hc))
    refine ⟨?_, by rw [sub_add_cancel]; exact hlt⟩
    have : (2 : ℚ) ^ (Nat.log2 a : Int) / (2 : ℚ) ^ ((Nat.log2 b : Int) + 1) ≤ (a : ℚ) / b := by
      calc (2 : ℚ) ^ (Nat.log2 a : Int) / (2 : ℚ) ^ ((Nat.log2 b : Int) + 1)
          ≤ a / (2 : ℚ) ^ ((Nat.log2 b : Int) + 1) :=
            div_le_div_of_nonneg_right la1 (le_of_lt hpb)
        _ ≤ (a : ℚ) / b := div_le_div_of_nonneg_left (le_of_lt haq) hbq (le_of_lt lb2)
    rw [← zpow_sub₀ h2] at this
    rw [show e0 - 1 = (Nat.log2 a : Int) - ((Nat.log2 b : Int) + 1) by rw [he0]; ring]
    exact this

theorem abs_sub_div_le_half (m N D : ℚ) (hD : 0 < D) (h1 : 2 * (m * D) ≤ 2 * N + D)
    (h2 : 2 * N ≤ 2 * (m * D) + D) : |m - N / D| ≤ 1 / 2 := by
  have hQ : N / D * D = N := div_mul_cancel₀ N (ne_of_gt hD)
  rw [abs_le]
  constructor
  · by_contra h
    push_neg at h
    have hp := mul_pos (by linarith : 0 < N / D - m - 1 / 2) hD
    have he : (N / D - m - 1 / 2) * D = N - m * D - D / 2 := by rw [sub_mul, sub_mul, hQ]; ring
    rw [he] at hp
    linarith
  · by_contra h
    push_neg at h
    have hp := mul_pos (by linarith : 0 < m - N / D - 1 / 2) hD
    have he : (m - N / D - 1 / 2) * D = m * D - N - D / 2 := by rw [sub_mul, sub_mul, hQ]; ring
    rw [he] at hp
    linarith

/-- The significand of the single-precision quotient: the nearest integer to the quotient
scaled by its unit in the last place, between `2^23` and `2^24`. -/
theorem f32Quot_significand (a b : Nat) (ha : 0 < a) (hb : 0 < b) :
    |(roundHalfEven (a * 2 ^ (23 - quotExp a b).toNat) (b * 2 ^ (quotExp a b - 23).toNat) : ℚ)
        - (a : ℚ) / b * 2 ^ (-(quotExp a b - 23))| ≤ 1 / 2 ∧
    8388608 ≤ roundHalfEven (a * 2 ^ (23 - quotExp a b).toNat)
        (b * 2 ^ (quotExp a b - 23).toNat) ∧
    roundHalfEven (a * 2 ^ (23 - quotExp a b).toNat) (b * 2 ^ (quotExp a b - 23).toNat)
      ≤ 16777216 := by
  have hbq : (0 : ℚ) < b := by exact_mod_cast hb
  have h2 : (2 : ℚ) ≠ 0 := by norm_num
  obtain ⟨hlo, hhi⟩ := quotExp_spec a b ha hb
  set e := quotExp a b with he
  have hs : (23 - e) = -(e - 23) := by ring
  rw [hs]
  set s : Int := e - 23 with hsdef
  have hDpos : 0 < b * 2 ^ s.toNat := Nat.mul_pos hb (by positivity)
  obtain ⟨h1, h2'⟩ := roundHalfEven_near (a * 2 ^ (-s).toNat) (b * 2 ^ s.toNat) hDpos
  set m := roundHalfEven (a * 2 ^ (-s).toNat) (b * 2 ^ s.toNat) with hm
  have hDq : (0 : ℚ) < (b : ℚ) * 2 ^ s.toNat := by positivity
  have hq1 : 2 * ((m : ℚ) * ((b : ℚ) * 2 ^ s.toNat)) ≤
      2 * ((a : ℚ) * 2 ^ (-s).toNat) + (b : ℚ) * 2 ^ s.toNat := by
    have : ((2 * (m * (b * 2 ^ s.toNat)) : Nat) : ℚ) ≤
        ((2 * (a * 2 ^ (-s).toNat) + b * 2 ^ s.toNat : Nat) : ℚ) := by exact_mod_cast h1
    push_cast at this
    linarith
  have hq2 : 2 * ((a : ℚ) * 2 ^ (-s).toNat) ≤
      2 * ((m : ℚ) * ((b : ℚ) * 2 ^ s.toNat)) + (b : ℚ) * 2 ^ s.toNat := by
    have : ((2 * (a * 2 ^ (-s).toNat) : Nat) : ℚ) ≤
        ((2 * (m * (b * 2 ^ s.toNat)) + b * 2 ^ s.toNat : Nat) : ℚ) := by exact_mod_cast h2'
    push_cast at this
    linarith
  have hquot : ((a : ℚ) * 2 ^ (-s).toNat) / ((b : ℚ) * 2 ^ s.toNat) = (a : ℚ) / b * 2 ^ (-s) := by
    rw [← two_zpow_toNat s]
    field_simp
  have habs : |(m : ℚ) - (a : ℚ) / b * 2 ^ (-s)| ≤ 1 / 2 := by
    rw [← hquot]
    exact abs_sub_div_le_half _ _ _ hDq hq1 hq2
  have hpos : (0 : ℚ) < (2 : ℚ) ^ (-s) := by positivity
  -- the scaled quotient lies in [2^23, 2^24)
  have hlo' : (8388608 : ℚ) ≤ (a : ℚ) / b * 2 ^ (-s) := by
    have := mul_le_mul_of_nonneg_right hlo (le_of_lt hpos)
    rw [← zpow_add₀ h2, show e + -s = 23 by rw [hsdef]; ring] at this
    have h23 : (2 : ℚ) ^ (23 : Int) = 8388608 := by norm_num
    rw [h23] at this
    exact this
  have hhi' : (a : ℚ) / b * 2 ^ (-s) < 16777216 := by
    have := mul_lt_mul_of_pos_right hhi hpos
    rw [← zpow_add₀ h2, show e + 1 + -s = 24 by rw [hsdef]; ring] at this
    have h24 : (2 : ℚ) ^ (24 : Int) = 16777216 := by norm_num
    rw [h24] at this
    exact this
  obtain ⟨ha1, ha2⟩ := abs_le.mp habs
  refine ⟨habs, ?_, ?_⟩
  · have : (8388607 : ℚ) < (m : ℚ) := by linarith
    have h' : ((8388607 : Nat) : ℚ) < (m : ℚ) := by exact_mod_cast this
    have := Nat.cast_lt.mp h'
    omega
  · have : (m : ℚ) < 16777217 := by linarith
    have h' : (m : ℚ) < ((16777217 : Nat) : ℚ) := by exact_mod_cast this
    have := Nat.cast_lt.mp h'
    omega

/-- The single-precision quotient is within half a unit in the last place of the quotient. -/
theorem f32Quot_near (a b : Nat) (ha : 0 < a) (hb : 0 < b) :
    |f32Quot a b - (a : ℚ) / b| ≤ (2 : ℚ) ^ (quotExp a b - 24) := by
  have h2 : (2 : ℚ) ≠ 0 := by norm_num
  have habs := (f32Quot_significand a b ha hb).1
  unfold f32Quot
  rw [if_neg (by omega)]
  set m := roundHalfEven (a * 2 ^ (23 - quotExp a b).toNat) (b * 2 ^ (quotExp a b - 23).toNat)
  set s : Int := quotExp a b - 23 with hsdef
  have hpos : (0 : ℚ) < (2 : ℚ) ^ s := by positivity
  have hfact : (m : ℚ) * 2 ^ s - (a : ℚ) / b = ((m : ℚ) - (a : ℚ) / b * 2 ^ (-s)) * 2 ^ s := by
    rw [sub_mul, mul_assoc, ← zpow_add₀ h2, neg_add_cancel, zpow_zero, mul_one]
  rw [hfact, abs_mul, abs_of_pos hpos]
  calc |(m : ℚ) - (a : ℚ) / b * 2 ^ (-s)| * 2 ^ s ≤ 1 / 2 * 2 ^ s :=
        mul_le_mul_of_nonneg_right habs (le_of_lt hpos)
    _ = (2 : ℚ) ^ (quotExp a b - 24) := by
        rw [show quotExp a b - 24 = s + (-1) by rw [hsdef]; ring, zpow_add₀ h2]
        norm_num
        ring

/-- For a positive delta below `2^24` the scale is a `float`, a 24-bit significand `m` times
a power of two `2^k`, within half a unit `2^k` of the quotient `d / 120`, hence within the
relative error `2^-24` of it. -/
theorem scaleOf_near (d : Int) (h0 : 0 < d) (h24 : d < 16777216) :
    (∃ (m : Nat) (k : Int), 8388608 ≤ m ∧ m ≤ 16777216 ∧ scaleOf d = (m : ℚ) * 2 ^ k ∧
      |scaleOf d - (d : ℚ) / 120| ≤ (2 : ℚ) ^ k / 2) ∧
    |scaleOf d - (d : ℚ) / 120| ≤ (d : ℚ) / 120 * (2 : ℚ) ^ (-24 : Int) := by
  have h2 : (2 : ℚ) ≠ 0 := by norm_num
  have hn : d.natAbs ≠ 0 := by omega
  have hnat : f32OfNat d.natAbs = d.natAbs := by
    unfold f32OfNat
    rw [if_pos]
    have : d.natAbs.log2 < 24 := (Nat.log2_lt hn).mpr (by omega)
    omega
  have hdl : defaultLineDelta.toNat = 120 := by decide
  have hcast : ((d.natAbs : Nat) : ℚ) = (d : ℚ) := by
    rw [← Int.cast_natCast, Int.natAbs_of_nonneg (le_of_lt h0)]
  have hval : scaleOf d = f32Quot d.natAbs 120 := by
    unfold scaleOf
    rw [if_neg (by omega), hnat, hdl]
  have hnear := f32Quot_near d.natAbs 120 (by omega) (by norm_num)
  have hexp := (quotExp_spec d.natAbs 120 (by omega) (by norm_num)).1
  obtain ⟨_, hm1, hm2⟩ := f32Quot_significand d.natAbs 120 (by omega) (by norm_num)
  rw [hcast] at hnear hexp
  push_cast at hnear hexp
  rw [← hval] at hnear
  constructor
  · refine ⟨_, quotExp d.natAbs 120 - 23, hm1, hm2, ?_, ?_⟩
    · rw [hval]
      unfold f32Quot
      rw [if_neg (by omega)]
    · refine le_trans hnear (le_of_eq ?_)
      rw [show quotExp d.natAbs 120 - 24 = quotExp d.natAbs 120 - 23 + (-1) by ring,
        zpow_add₀ h2]
      norm_num
      ring
  · refine le_trans hnear ?_
    rw [show quotExp d.natAbs 120 - 24 = quotExp d.natAbs 120 + (-24) by ring, zpow_add₀ h2]
    exact mul_le_mul_of_nonneg_right hexp (by positivity)

theorem scaleOf_one : scaleOf 1 = 8947849 / 1073741824 := by
  simp [scaleOf, f32Quot, f32OfNat, quotExp, roundHalfEven, defaultLineDelta, Nat.log2]
  norm_num

theorem scaleOf_two : scaleOf 2 = 8947849 / 536870912 := by
  simp [scaleOf, f32Quot, f32OfNat, quotExp, roundHalfEven, defaultLineDelta, Nat.log2]
  norm_num

theorem scaleOf_fifteen : scaleOf 15 = 1 / 8 := by
  simp [scaleOf, f32Quot, f32OfNat, quotExp, roundHalfEven, defaultLineDelta, Nat.log2]
  norm_num

theorem scaleOf_default : scaleOf 120 = 1 := by
  simp [scaleOf, f32Quot, f32OfNat, quotExp, roundHalfEven, defaultLineDelta, Nat.log2]
  norm_num

theorem detectScans_some (im : Image) (sx sy : Scan) (h : detectScans im = some (sx, sy)) :
    ∃ mX mY, maxElement (histograms im).cntLineX = some mX ∧
      maxElement (histograms im).cntLineY = some mY ∧
      sx = candScan (histograms im).cntLineX mX (cumBgX im) [] ∧
      sy = candScan (histograms im).cntLineY mY (cumBgY im) sx.deltas := by
  unfold detectScans at h
  cases hX : maxElement (histograms im).cntLineX with
  | none => simp [hX] at h
  | some mX =>
    cases hY : maxElement (histograms im).cntLineY with
    | none => simp [hX, hY] at h
    | some mY =>
      simp only [hX, hY, Option.some.injEq, Prod.mk.injEq] at h
      refine ⟨mX, mY, rfl, rfl, h.1.symm, ?_⟩
      rw [← h.2, ← h.1]
      rfl

theorem detectScans_of_max (im : Image) (mX mY : Int)
    (hX : maxElement (histograms im).cntLineX = some mX)
    (hY : maxElement (histograms im).cntLineY = some mY) :
    detectScans im =
      some (candScan (histograms im).cntLineX mX (cumBgX im) [],
        candScan (histograms im).cntLineY mY (cumBgY im)
          (candScan (histograms im).cntLineX mX (cumBgX im) []).deltas) := by
  unfold detectScans
  simp only [hX, hY]
  rfl

theorem detectCenter_some (im : Image) (c : Calibration) (h : detectCenter im = some c) :
    ∃ sx sy md, detectScans im = some (sx, sy) ∧ modeDelta sy.deltas = some md ∧
      c = ⟨sx.res, sy.res, scaleOf md.1⟩ := by
  unfold detectCenter at h
  cases hs : detectScans im with
  | none => simp [hs] at h
  | some s =>
    obtain ⟨sx, sy⟩ := s
    cases hm : modeDelta sy.deltas with
    | none => simp [hs, hm] at h
    | some md =>
      simp only [hs, hm, Option.some.injEq] at h
      exact ⟨sx, sy, md, rfl, hm, h.symm⟩

theorem detectCenter_of_scans (im : Image) (sx sy : Scan) (md : Int × Int)
    (hs : detectScans im = some (sx, sy)) (hm : modeDelta sy.deltas = some md) :
    detectCenter im = some ⟨sx.res, sy.res, scaleOf md.1⟩ := by
  unfold detectCenter
  simp only [hs, hm]

/-- C19: on a raster with at least one row and one column, the centre that `detectCenter`
computes (and returns as `detectedCenter`) has as `centerX`, when some column candidate has a
smoothed background count strictly below `cumBgX[0]`, the candidate of least count, the
leftmost one on ties, and otherwise (no candidate, or none strictly below `cumBgX[0]`) 0;
`centerY` is chosen the same way from the row candidates and `cumBgY`. -/
theorem detectCenter_center (im : Image) (hrows : 0 < im.rows) (hcols : 0 < im.cols) :
    ∃ centerX centerY, detectedCenter im = some (centerX, centerY) ∧
    (((∃ x < im.cols, columnCandidate im x = true ∧
          (cumBgX im).getD x 0 < (cumBgX im).getD 0 0) →
        centerX < im.cols ∧ columnCandidate im centerX = true ∧
        ∀ x < im.cols, columnCandidate im x = true →
          (cumBgX im).getD centerX 0 ≤ (cumBgX im).getD x 0 ∧
          ((cumBgX im).getD x 0 = (cumBgX im).getD centerX 0 → centerX ≤ x)) ∧
      (¬ (∃ x < im.cols, columnCandidate im x = true ∧
          (cumBgX im).getD x 0 < (cumBgX im).getD 0 0) → centerX = 0)) ∧
    (((∃ y < im.rows, rowCandidate im y = true ∧
          (cumBgY im).getD y 0 < (cumBgY im).getD 0 0) →
        centerY < im.rows ∧ rowCandidate im centerY = true ∧
        ∀ y < im.rows, rowCandidate im y = true →
          (cumBgY im).getD centerY 0 ≤ (cumBgY im).getD y 0 ∧
          ((cumBgY im).getD y 0 = (cumBgY im).getD centerY 0 → centerY ≤ y)) ∧
      (¬ (∃ y < im.rows, rowCandidate im y = true ∧
          (cumBgY im).getD y 0 < (cumBgY im).getD 0 0) → centerY = 0)) ∧
    (∀ c, detectCenter im = some c → c.centerX = centerX ∧ c.centerY = centerY) := by
  have hlx := (histograms_spec im).1.1
  have hly := (histograms_spec im).2.1.1
  have hnx : (histograms im).cntLineX ≠ [] := by
    intro h; rw [h] at hlx; simp at hlx; omega
  have hny : (histograms im).cntLineY ≠ [] := by
    intro h; rw [h] at hly; simp at hly; omega
  obtain ⟨mX, hX⟩ := maxElement_isSome _ hnx
  obtain ⟨mY, hY⟩ := maxElement_isSome _ hny
  have hs := detectScans_of_max im mX mY hX hY
  have hcx : ∀ x, columnCandidate im x = isCandidate (histograms im).cntLineX mX x := by
    intro x; simp [columnCandidate, hX]
  have hcy : ∀ y, rowCandidate im y = isCandidate (histograms im).cntLineY mY y := by
    intro y; simp [rowCandidate, hY]
  have hx := candScan_res (histograms im).cntLineX mX (cumBgX im) []
  have hy := candScan_res (histograms im).cntLineY mY (cumBgY im)
    (candScan (histograms im).cntLineX mX (cumBgX im) []).deltas
  rw [hlx] at hx
  rw [hly] at hy
  refine ⟨_, _, by rw [detectedCenter, hs]; rfl, ?_, ?_, ?_⟩
  · simp only [hcx]
    exact hx
  · simp only [hcy]
    exact hy
  · intro c hc
    obtain ⟨sx, sy, md, hs2, _, rfl⟩ := detectCenter_some im c hc
    rw [hs] at hs2
    simp only [Option.some.injEq, Prod.mk.injEq] at hs2
    rw [← hs2.1, ← hs2.2]
    exact ⟨rfl, rfl⟩

set_option maxRecDepth 100000 in
/-- Witness of C19 on the 3x3 raster with one candidate per axis: the centre is `(2,2)`,
although the map of deltas is empty. -/
theorem detectCenter_center_witness :
    detectedCenter crossImg = some (2, 2) ∧ columnCandidate crossImg 2 = true ∧
    rowCandidate crossImg 2 = true ∧ detectDeltas crossImg = some [] := by
  obtain ⟨cx, cy, h1, hx, hy, _⟩ := detectCenter_center crossImg (by decide) (by decide)
  have h2 : detectedCenter crossImg = some (2, 2) := by decide
  rw [h2] at h1
  simp only [Option.some.injEq, Prod.mk.injEq] at h1
  obtain ⟨rfl, rfl⟩ := h1
  exact ⟨h2, (hx.1 ⟨2, by decide, by decide, by decide⟩).2.1,
    (hy.1 ⟨2, by decide, by decide, by decide⟩).2.1, by decide⟩

theorem mem_getD (l : List Int) (m : Int) (h : m ∈ l) : ∃ i < l.length, l.getD i 0 = m := by
  obtain ⟨i, hi, hm⟩ := List.mem_iff_getElem.mp h
  exact ⟨i, hi, by rw [List.getD_eq_getElem l 0 hi, hm]⟩

theorem getD_mem (l : List Int) (i : Nat) (h : i < l.length) : l.getD i 0 ∈ l := by
  rw [List.getD_eq_getElem l 0 h]
  exact List.getElem_mem _

theorem isCandidate_iff (cnt : List Int) (m : Int) (hm : 0 ≤ m) (x : Nat) :
    isCandidate cnt m x = true ↔ 10 * cnt.getD x 0 > 7 * m := by
  unfold isCandidate
  rw [decide_eq_true_eq, Int.tdiv_eq_ediv (by omega) (by omega)]
  omega

theorem maxLineX_nonneg (im : Image) (m : Int)
    (h : maxElement (histograms im).cntLineX = some m) : 0 ≤ m := by
  obtain ⟨i, hi, hm⟩ := mem_getD _ _ (maxElement_spec _ _ h).1
  rw [(histograms_spec im).1.1] at hi
  rw [← hm, (histograms_spec im).1.2 i hi]
  exact Int.natCast_nonneg _

theorem maxLineY_nonneg (im : Image) (m : Int)
    (h : maxElement (histograms im).cntLineY = some m) : 0 ≤ m := by
  obtain ⟨i, hi, hm⟩ := mem_getD _ _ (maxElement_spec _ _ h).1
  rw [(histograms_spec im).2.1.1] at hi
  rw [← hm, (histograms_spec im).2.1.2 i hi]
  exact Int.natCast_nonneg _

theorem ratio_iff (c m : Int) : 10 * c > 7 * m ↔ (c : ℚ) > 7 / 10 * (m : ℚ) := by
  constructor
  · intro h
    have h' : ((7 * m : Int) : ℚ) < ((10 * c : Int) : ℚ) := by exact_mod_cast h
    push_cast at h'
    linarith
  · intro h
    have h' : ((7 * m : Int) : ℚ) < ((10 * c : Int) : ℚ) := by
      push_cast
      linarith
    exact_mod_cast h'

theorem countP_pos_of (l : List Nat) (p : Nat → Bool) (a : Nat) (ha : a ∈ l) (hp : p a = true) :
    0 < l.countP p :=
  List.countP_pos_iff.mpr ⟨a, ha, hp⟩

/-- C20: a column is a grid-line candidate of `detectCenter` exactly when ten times its
line-pixel count exceeds seven times the peak column count, that is when the count exceeds
70% of the peak as a rational number: the truncating division of the source loses nothing
(same for rows); when the raster holds a line-coloured pixel, the peak column and the peak row
are candidates. -/
theorem candidate_iff_seventy_percent (im : Image) :
    (∀ maxLineX, maxElement (histograms im).cntLineX = some maxLineX → ∀ x < im.cols,
      ((histograms im).cntLineX.getD x 0 > (maxLineX * 7).tdiv 10 ↔
        10 * (histograms im).cntLineX.getD x 0 > 7 * maxLineX) ∧
      (columnCandidate im x = true ↔
        ((histograms im).cntLineX.getD x 0 : ℚ) > 7 / 10 * (maxLineX : ℚ))) ∧
    (∀ maxLineY, maxElement (histograms im).cntLineY = some maxLineY → ∀ y < im.rows,
      ((histograms im).cntLineY.getD y 0 > (maxLineY * 7).tdiv 10 ↔
        10 * (histograms im).cntLineY.getD y 0 > 7 * maxLineY) ∧
      (rowCandidate im y = true ↔
        ((histograms im).cntLineY.getD y 0 : ℚ) > 7 / 10 * (maxLineY : ℚ))) ∧
    ((∃ x < im.cols, ∃ y < im.rows, eqColor (im.px y x) lineColor 10 = true) →
      ∃ maxLineX maxLineY,
        maxElement (histograms im).cntLineX = some maxLineX ∧
        maxElement (histograms im).cntLineY = some maxLineY ∧
        (∃ x < im.cols, (histograms im).cntLineX.getD x 0 = maxLineX) ∧
        (∃ y < im.rows, (histograms im).cntLineY.getD y 0 = maxLineY) ∧
        (∀ x < im.cols, (histograms im).cntLineX.getD x 0 = maxLineX →
          columnCandidate im x = true) ∧
        (∀ y < im.rows, (histograms im).cntLineY.getD y 0 = maxLineY →
          rowCandidate im y = true)) := by
  obtain ⟨⟨hlx, hgx⟩, ⟨hly, hgy⟩, _, _⟩ := histograms_spec im
  refine ⟨?_, ?_, ?_⟩
  · intro m hm x _
    have h0 := maxLineX_nonneg im m hm
    have hi := isCandidate_iff (histograms im).cntLineX m h0 x
    refine ⟨?_, ?_⟩
    · rw [← hi]; simp [isCandidate]
    · rw [← ratio_iff, ← hi]; simp [columnCandidate, hm]
  · intro m hm y _
    have h0 := maxLineY_nonneg im m hm
    have hi := isCandidate_iff (histograms im).cntLineY m h0 y
    refine ⟨?_, ?_⟩
    · rw [← hi]; simp [isCandidate]
    · rw [← ratio_iff, ← hi]; simp [rowCandidate, hm]
  · rintro ⟨x, hx, y, hy, hline⟩
    have hnx : (histograms im).cntLineX ≠ [] := by
      intro h; rw [h] at hlx; simp at hlx; omega
    have hny : (histograms im).cntLineY ≠ [] := by
      intro h; rw [h] at hly; simp at hly; omega
    obtain ⟨mX, hmX⟩ := maxElement_isSome _ hnx
    obtain ⟨mY, hmY⟩ := maxElement_isSome _ hny
    obtain ⟨hmemX, hleX⟩ := maxElement_spec _ _ hmX
    obtain ⟨hmemY, hleY⟩ := maxElement_spec _ _ hmY
    have hposX : 0 < mX := by
      have h1 := hleX _ (getD_mem _ x (by rw [hlx]; exact hx))
      rw [hgx x hx] at h1
      have : 0 < colCount im lineColor x :=
        countP_pos_of _ _ y (List.mem_range.mpr hy) hline
      omega
    have hposY : 0 < mY := by
      have h1 := hleY _ (getD_mem _ y (by rw [hly]; exact hy))
      rw [hgy y hy] at h1
      have : 0 < rowCount im lineColor y :=
        countP_pos_of _ _ x (List.mem_range.mpr hx) hline
      omega
    obtain ⟨ix, hix, hix2⟩ := mem_getD _ _ hmemX
    obtain ⟨iy, hiy, hiy2⟩ := mem_getD _ _ hmemY
    refine ⟨mX, mY, hmX, hmY, ⟨ix, by rw [← hlx]; exact hix, hix2⟩,
      ⟨iy, by rw [← hly]; exact hiy, hiy2⟩, ?_, ?_⟩
    · intro x' _ heq
      simp only [columnCandidate, hmX]
      rw [isCandidate_iff _ _ (le_of_lt hposX), heq]
      omega
    · intro y' _ heq
      simp only [rowCandidate, hmY]
      rw [isCandidate_iff _ _ (le_of_lt hposY), heq]
      omega

/-! ## The map of deltas and the scale -/

theorem foldl_argmax_spec (l : List (Int × Int)) :
    ∀ a : Int × Int,
      (l.foldl (fun m v => if v.2 > m.2 then v else m) a ∈ a :: l) ∧
      ∀ e ∈ a :: l, e.2 ≤ (l.foldl (fun m v => if v.2 > m.2 then v else m) a).2 := by
  induction l with
  | nil => intro a; simp
  | cons b l ih =>
    intro a
    rw [List.foldl_cons]
    obtain ⟨hm, hle⟩ := ih (if b.2 > a.2 then b else a)
    constructor
    · rcases List.mem_cons.mp hm with h | h
      · rw [h]
        split_ifs <;> simp
      · exact List.mem_cons_of_mem _ (List.mem_cons_of_mem _ h)
    · intro e he
      have h0 := hle (if b.2 > a.2 then b else a) (List.mem_cons_self _ _)
      rcases List.mem_cons.mp he with rfl | he
      · refine le_trans ?_ h0
        split_ifs <;> omega
      · rcases List.mem_cons.mp he with rfl | he
        · refine le_trans ?_ h0
          split_ifs <;> omega
        · exact hle e (List.mem_cons_of_mem _ he)

/-- The mode loop returns an entry of the map whose count is the largest. -/
theorem modeDelta_spec (D : List (Int × Int)) (hne : D ≠ []) :
    ∃ md, modeDelta D = some md ∧ md ∈ D ∧ ∀ e ∈ D, e.2 ≤ md.2 := by
  cases D with
  | nil => exact absurd rfl hne
  | cons first rest =>
    refine ⟨_, rfl, ?_, ?_⟩
    · have h := (foldl_argmax_spec (first :: rest) first).1
      rcases List.mem_cons.mp h with h1 | h1
      · rw [h1]; exact List.mem_cons_self _ _
      · exact h1
    · intro e he
      exact (foldl_argmax_spec (first :: rest) first).2 e (List.mem_cons_of_mem _ he)

set_option maxRecDepth 100000 in
theorem gapsRow_scans :
    detectScans gapsRow = some (⟨0, 5, [(1, 1), (2, 2)]⟩, ⟨0, 0, [(1, 1), (2, 2)]⟩) := by
  decide

/-- C13, as stated, fails: on the one-row raster with line-coloured columns 0, 1, 3 and 5
the deltas are 1 (once) and 2 (twice), the unique most frequent delta is 2, and the scale that
`detectCenter` returns is the `float` 8947849/2^29, not 2/120. -/
theorem gapsRow_scale_rounded :
    detectDeltas gapsRow = some [(1, 1), (2, 2)] ∧
    (∃ c, detectCenter gapsRow = some c ∧ c.scaling = 8947849 / 536870912 ∧
      c.scaling ≠ 2 / 120) := by
  constructor
  · rw [detectDeltas, gapsRow_scans]; rfl
  · refine ⟨_, detectCenter_of_scans gapsRow _ _ (2, 2) gapsRow_scans (by decide), ?_, ?_⟩
    · exact scaleOf_two
    · rw [show (⟨0, 0, scaleOf ((2 : Int), (2 : Int)).1⟩ : Calibration).scaling = scaleOf 2
        from rfl, scaleOf_two]
      norm_num

/-- C13, amended: when the map of deltas of an image is non-empty and `d` is its unique most
frequent delta, `detectCenter` returns as scale the single-precision quotient
`(float)d / 120` of line 295, 120 being `defaultLineDelta`: for `0 < d < 2^24` a `float`
(24-bit significand times a power of two) within half a unit in the last place of `d / 120`,
so within the relative error `2^-24`; it is 1 for `d = 120` and 1/8 for `d = 15`, where
`d / 120` is a `float`, but 8947849/2^30 for `d = 1` and 8947849/2^29 for `d = 2`. -/
theorem detectCenter_scale (im : Image) (D : List (Int × Int)) (d n : Int)
    (hD : detectDeltas im = some D) (hmem : (d, n) ∈ D)
    (huniq : ∀ e ∈ D, e.1 ≠ d → e.2 < n) :
    (∃ c, detectCenter im = some c ∧ c.scaling = scaleOf d) ∧
    defaultLineDelta = 120 ∧
    (0 < d → d < 16777216 →
      (∃ (m : Nat) (k : Int), 8388608 ≤ m ∧ m ≤ 16777216 ∧ scaleOf d = (m : ℚ) * 2 ^ k ∧
        |scaleOf d - (d : ℚ) / 120| ≤ (2 : ℚ) ^ k / 2) ∧
      |scaleOf d - (d : ℚ) / 120| ≤ (d : ℚ) / 120 * (2 : ℚ) ^ (-24 : Int)) ∧
    (scaleOf 120 = 1 ∧ scaleOf 15 = 1 / 8 ∧ scaleOf 1 = 8947849 / 1073741824 ∧
      scaleOf 2 = 8947849 / 536870912) := by
  refine ⟨?_, rfl, scaleOf_near d, scaleOf_default, scaleOf_fifteen, scaleOf_one,
    scaleOf_two⟩
  unfold detectDeltas at hD
  cases hs : detectScans im with
  | none => simp [hs] at hD
  | some s =>
    obtain ⟨sx, sy⟩ := s
    simp only [hs, Option.map_some', Option.some.injEq] at hD
    subst hD
    obtain ⟨md, hmd, hin, hmax⟩ := modeDelta_spec sy.deltas (List.ne_nil_of_mem hmem)
    refine ⟨_, detectCenter_of_scans im sx sy md hs hmd, ?_⟩
    have hd : md.1 = d := by
      by_contra hne
      have h1 := huniq md hin hne
      have h2 := hmax (d, n) hmem
      simp only at h2
      omega
    simp [hd]

/-- Witness of the amended C13 on the one-row raster with line-coloured columns 0, 1, 3 and
5: the deltas 1 and 2 are counted once and twice, and the scale is that of the delta 2. -/
theorem detectCenter_scale_witness :
    ∃ c, detectCenter gapsRow = some c ∧ c.scaling = scaleOf 2 :=
  (detectCenter_scale gapsRow [(1, 1), (2, 2)] 2 2
    (by rw [detectDeltas, gapsRow_scans]; rfl) (by decide) (by decide)).1

/-- The deltas after a loop over candidates only. -/
theorem candFold_deltas (cum : List Int) (cs : List Nat) :
    ∀ s : Scan,
      (cs.foldl (fun (s : Scan) (x : Nat) =>
        ({ res := if cum.getD x 0 < cum.getD s.res 0 then x else s.res
           prev := (x : Int)
           deltas := if s.prev ≠ -1 then mapIncr s.deltas ((x : Int) - s.prev) else s.deltas }
          : Scan)) s).deltas = (gapsFrom s.prev cs).foldl mapIncr s.deltas := by
  induction cs with
  | nil => intro s; rfl
  | cons x cs ih =>
    intro s
    rw [List.foldl_cons, ih]
    by_cases hp : s.prev ≠ -1
    · simp only [gapsFrom, hp, if_true, List.foldl_cons, ne_eq, not_false_eq_true]
    · simp only [gapsFrom, hp, if_false]

/-- The map of deltas after a whole candidate loop: the deltas counted before, plus the pixel
distances between consecutive candidates. -/
theorem candScan_deltas (cnt : List Int) (m : Int) (cum : List Int) (D : List (Int × Int)) :
    (candScan cnt m cum D).deltas =
      (gapsFrom (-1) ((List.range cnt.length).filter (isCandidate cnt m))).foldl mapIncr D := by
  unfold candScan
  rw [candStep_eq, foldl_cond_eq_filter (isCandidate cnt m), candFold_deltas]

theorem gapsFrom_short (l : List Nat) (h : l.length ≤ 1) : gapsFrom (-1) l = [] := by
  match l, h with
  | [], _ => rfl
  | [a], _ => simp [gapsFrom]
  | _ :: _ :: _, h => simp at h

theorem detectCenter_none_of_deltas_nil (im : Image)
    (h : ∀ sx sy, detectScans im = some (sx, sy) → sy.deltas = []) : detectCenter im = none := by
  unfold detectCenter
  cases hs : detectScans im with
  | none => rfl
  | some s =>
    obtain ⟨sx, sy⟩ := s
    simp only [h sx sy hs, modeDelta]

/-- Without a line-coloured pixel no index passes the candidate test. -/
theorem no_candidate_of_zero (cnt : List Int) (m : Int) (hm : m ∈ cnt)
    (hz : ∀ i < cnt.length, cnt.getD i 0 = 0) :
    (List.range cnt.length).filter (isCandidate cnt m) = [] := by
  obtain ⟨i, hi, hmi⟩ := mem_getD cnt m hm
  have hm0 : m = 0 := by rw [← hmi]; exact hz i hi
  rw [List.filter_eq_nil_iff]
  intro x hx
  rw [isCandidate_iff cnt m (by omega), hz x (List.mem_range.mp hx), hm0]
  omega

theorem detectCenter_none_of_no_line (im : Image)
    (hno : ∀ x < im.cols, ∀ y < im.rows, eqColor (im.px y x) lineColor 10 = false) :
    detectCenter im = none := by
  obtain ⟨⟨hlx, hgx⟩, ⟨hly, hgy⟩, _, _⟩ := histograms_spec im
  apply detectCenter_none_of_deltas_nil
  intro sx sy hs
  obtain ⟨mX, mY, hX, hY, rfl, rfl⟩ := detectScans_some im sx sy hs
  have hzx : ∀ i < (histograms im).cntLineX.length, (histograms im).cntLineX.getD i 0 = 0 := by
    intro i hi
    rw [hlx] at hi
    rw [hgx i hi]
    have : colCount im lineColor i = 0 := by
      unfold colCount
      rw [List.countP_eq_zero]
      intro y hy
      rw [hno i hi y (List.mem_range.mp hy)]
      exact Bool.false_ne_true
    exact_mod_cast this
  have hzy : ∀ i < (histograms im).cntLineY.length, (histograms im).cntLineY.getD i 0 = 0 := by
    intro i hi
    rw [hly] at hi
    rw [hgy i hi]
    have : rowCount im lineColor i = 0 := by
      unfold rowCount
      rw [List.countP_eq_zero]
      intro x hx
      rw [hno x (List.mem_range.mp hx) i hi]
      exact Bool.false_ne_true
    exact_mod_cast this
  rw [candScan_deltas, candScan_deltas,
    no_candidate_of_zero _ mX (maxElement_spec _ _ hX).1 hzx,
    no_candidate_of_zero _ mY (maxElement_spec _ _ hY).1 hzy]
  rfl

set_option maxRecDepth 100000 in
/-- C14 at failing inputs: on the one-pixel raster holding black there is no candidate, on
the one holding the line colour there is one candidate per axis; in both the map of deltas is
empty and `detectCenter` dereferences `deltas.begin()` of the empty map (`none`): no default
calibration and no error.  The same holds for every raster without a line-coloured pixel. -/
theorem detectCenter_undefined_on_empty_deltas :
    detectScans (onePixel black) = some (⟨0, -1, []⟩, ⟨0, -1, []⟩) ∧
    detectCenter (onePixel black) = none ∧
    detectScans (onePixel lineColor) = some (⟨0, 0, []⟩, ⟨0, 0, []⟩) ∧
    detectCenter (onePixel lineColor) = none ∧
    (∀ im : Image,
      (∀ x < im.cols, ∀ y < im.rows, eqColor (im.px y x) lineColor 10 = false) →
      detectCenter im = none) := by
  refine ⟨by decide, ?_, by decide, ?_, detectCenter_none_of_no_line⟩
  · apply detectCenter_none_of_deltas_nil
    intro sx sy hs
    have h : detectScans (onePixel black) = some (⟨0, -1, []⟩, ⟨0, -1, []⟩) := by decide
    rw [h] at hs
    simp only [Option.some.injEq, Prod.mk.injEq] at hs
    rw [← hs.2]
  · apply detectCenter_none_of_deltas_nil
    intro sx sy hs
    have h : detectScans (onePixel lineColor) = some (⟨0, 0, []⟩, ⟨0, 0, []⟩) := by decide
    rw [h] at hs
    simp only [Option.some.injEq, Prod.mk.injEq] at hs
    rw [← hs.2]

/-! ## The calibration scenario: one row of grid lines 120 apart -/

theorem eqColor_symm (a b : Vec4b) (eps : Int) : eqColor a b eps = eqColor b a eps := by
  have h : ∀ u v : Fin 256, chanDiff u v = chanDiff v u := by
    intro u v
    unfold chanDiff
    omega
  unfold eqColor
  simp only [h a.v0, h a.v1, h a.v2, h a.v3]

theorem line_not_background (p : Vec4b) (h : eqColor p lineColor 10 = true) :
    eqColor p backgroundOuter 10 = false := by
  by_contra hc
  rw [eqColor_symm] at h
  have h19 := eqColor_trans lineColor p backgroundOuter 10 10 h (by simpa using hc)
  exact absurd h19 (by decide)

theorem makeCumulative_zero (v : List Int) (hz : ∀ k, v.getD k 0 = 0) :
    ∀ i, (makeCumulative v).getD i 0 = 0 := by
  intro i
  by_cases hi : i < v.length
  · rw [makeCumulative_getD v i hi]
    have hs : (avgOffsets.map fun j =>
        v.getD (clampPos v.length ((i : Int) + j)).toNat 0).sum = 0 := by
      apply List.sum_eq_zero
      intro a ha
      obtain ⟨j, _, rfl⟩ := List.mem_map.mp ha
      exact hz _
    rw [hs]
    rfl
  · rw [List.getD_eq_default]
    rw [makeCumulative_length]
    omega

theorem gapsFrom_chain (t : List Nat) :
    ∀ a : Nat, List.Chain (fun a b => b = a + 120) a t →
      gapsFrom (a : Int) t = List.replicate t.length 120 := by
  induction t with
  | nil => intro a _; rfl
  | cons b t ih =>
    intro a h
    obtain ⟨hb, ht⟩ := List.chain_cons.mp h
    have hne : (a : Int) ≠ -1 := by omega
    simp only [gapsFrom, hne, ne_eq, not_false_eq_true, if_true, List.length_cons,
      List.replicate_succ, ih b ht]
    congr 1
    omega

theorem foldl_mapIncr_replicate (n : Nat) :
    ∀ c : Int, (List.replicate n (120 : Int)).foldl mapIncr [(120, c)] = [(120, c + n)] := by
  induction n with
  | zero => intro c; simp
  | succ n ih =>
    intro c
    rw [List.replicate_succ, List.foldl_cons]
    have h1 : mapIncr [(120, c)] 120 = [(120, c + 1)] := by simp [mapIncr]
    rw [h1, ih]
    congr 2
    push_cast
    ring

/-- The map of deltas recorded from at least two candidates 120 apart. -/
theorem deltas_of_chain (L : List Nat) (hchain : L.Chain' (fun a b => b = a + 120))
    (hlen : 2 ≤ L.length) :
    (gapsFrom (-1) L).foldl mapIncr [] = [(120, (L.length : Int) - 1)] := by
  match L, hchain, hlen with
  | a :: b :: t, hchain, _ =>
    have hc : List.Chain (fun a b => b = a + 120) a (b :: t) := hchain
    have hg : gapsFrom (-1) (a :: b :: t) = gapsFrom (a : Int) (b :: t) := by
      simp [gapsFrom]
    rw [hg, gapsFrom_chain (b :: t) a hc, List.length_cons, List.replicate_succ,
      List.foldl_cons]
    have h1 : mapIncr [] 120 = [(120, 1)] := rfl
    rw [h1, foldl_mapIncr_replicate]
    simp only [List.length_cons]
    congr 2
    push_cast
    ring

theorem colCount_oneRow (im : Image) (hrows : im.rows = 1) (c : Vec4b) (x : Nat) :
    colCount im c x = if eqColor (im.px 0 x) c 10 = true then 1 else 0 := by
  have h1 : List.range 1 = [0] := rfl
  unfold colCount
  rw [hrows, h1]
  by_cases h : eqColor (im.px 0 x) c 10 = true <;> simp [h]

/-- On a one-row raster whose line-coloured columns are at least two, each 120 after the
previous one, and whose other pixels are not outer background: the calibration is centre
`(0,0)` and scale 1, and the column candidates are exactly the line-coloured columns. -/
theorem oneRow_grid (im : Image) (L : List Nat) (hrows : im.rows = 1)
    (hL : (List.range im.cols).filter (fun x : Nat => eqColor (im.px 0 x) lineColor 10) = L)
    (hchain : L.Chain' (fun a b => b = a + 120)) (hlen : 2 ≤ L.length)
    (hother : ∀ x : Nat, x < im.cols → eqColor (im.px 0 x) lineColor 10 = false →
      eqColor (im.px 0 x) backgroundOuter 10 = false) :
    detectCenter im = some ⟨0, 0, 1⟩ ∧
    ∀ x : Nat, x < im.cols → columnCandidate im x = eqColor (im.px 0 x) lineColor 10 := by
  obtain ⟨⟨hlx, hgx⟩, ⟨hly, hgy⟩, ⟨hlbx, hgbx⟩, ⟨hlby, hgby⟩⟩ := histograms_spec im
  have hbg : ∀ x : Nat, x < im.cols → eqColor (im.px 0 x) backgroundOuter 10 = false := by
    intro x hx
    cases hl : eqColor (im.px 0 x) lineColor 10
    · exact hother x hx hl
    · exact line_not_background _ hl
  have hcx : ∀ x : Nat, x < im.cols → (histograms im).cntLineX.getD x 0 =
      if eqColor (im.px 0 x) lineColor 10 = true then 1 else 0 := by
    intro x hx
    rw [hgx x hx, colCount_oneRow im hrows]
    split_ifs <;> rfl
  have hcy : (histograms im).cntLineY.getD 0 0 = (L.length : Int) := by
    rw [hgy 0 (by omega), ← hL]
    simp only [rowCount, List.countP_eq_length_filter, Nat.cast_zero]
  have hbx : ∀ k, (histograms im).cntBgX.getD k 0 = 0 := by
    intro k
    by_cases hk : k < im.cols
    · rw [hgbx k hk]
      have : colCount im backgroundOuter k = 0 := by
        rw [colCount_oneRow im hrows, hbg k hk]
        rfl
      exact_mod_cast this
    · exact List.getD_eq_default _ _ (by omega)
  have hby : ∀ k, (histograms im).cntBgY.getD k 0 = 0 := by
    intro k
    by_cases hk : k < im.rows
    · rw [hgby k hk]
      have hk0 : k = 0 := by omega
      subst hk0
      have : rowCount im backgroundOuter 0 = 0 := by
        unfold rowCount
        rw [List.countP_eq_zero]
        intro x hx
        rw [Nat.cast_zero, hbg x (List.mem_range.mp hx)]
        exact Bool.false_ne_true
      exact_mod_cast this
    · exact List.getD_eq_default _ _ (by omega)
  have hcumX : ∀ i, (cumBgX im).getD i 0 = 0 := makeCumulative_zero _ hbx
  have hcumY : ∀ i, (cumBgY im).getD i 0 = 0 := makeCumulative_zero _ hby
  -- a line-coloured column exists
  obtain ⟨x0, hx0⟩ : ∃ x0, x0 ∈ L := by
    cases L with
    | nil => simp at hlen
    | cons a t => exact ⟨a, List.mem_cons_self _ _⟩
  have hx0' := hx0
  rw [← hL, List.mem_filter, List.mem_range] at hx0'
  obtain ⟨hx0c, hx0l⟩ := hx0'
  -- the two peaks
  have hnx : (histograms im).cntLineX ≠ [] := by
    intro h; rw [h] at hlx; simp at hlx; omega
  have hny : (histograms im).cntLineY ≠ [] := by
    intro h; rw [h] at hly; simp at hly; omega
  obtain ⟨mX, hmX⟩ := maxElement_isSome _ hnx
  obtain ⟨mY, hmY⟩ := maxElement_isSome _ hny
  have hmX1 : mX = 1 := by
    obtain ⟨hmem, hle⟩ := maxElement_spec _ _ hmX
    obtain ⟨i, hi, hmi⟩ := mem_getD _ _ hmem
    rw [hlx] at hi
    have h1 := hle _ (getD_mem _ x0 (by rw [hlx]; exact hx0c))
    rw [hcx x0 hx0c, if_pos hx0l] at h1
    rw [hcx i hi] at hmi
    split_ifs at hmi <;> omega
  subst hmX1
  have hcand : ∀ x : Nat, x < im.cols →
      isCandidate (histograms im).cntLineX 1 x = eqColor (im.px 0 x) lineColor 10 := by
    intro x hx
    rw [Bool.eq_iff_iff, isCandidate_iff _ _ (by omega), hcx x hx]
    split_ifs with h <;> simp [h]
  have hfilter : (List.range (histograms im).cntLineX.length).filter
      (isCandidate (histograms im).cntLineX 1) = L := by
    rw [hlx, ← hL]
    apply List.filter_congr
    intro x hx
    exact hcand x (List.mem_range.mp hx)
  have hdx : (candScan (histograms im).cntLineX 1 (cumBgX im) []).deltas
      = [(120, (L.length : Int) - 1)] := by
    rw [candScan_deltas, hfilter, deltas_of_chain L hchain hlen]
  have hdy : (candScan (histograms im).cntLineY mY (cumBgY im)
      (candScan (histograms im).cntLineX 1 (cumBgX im) []).deltas).deltas
      = [(120, (L.length : Int) - 1)] := by
    rw [candScan_deltas, gapsFrom_short, hdx]
    · rfl
    · refine le_trans (List.length_filter_le _ _) ?_
      rw [List.length_range, hly, hrows]
  have hrx : (candScan (histograms im).cntLineX 1 (cumBgX im) []).res = 0 := by
    apply (candScan_res _ _ _ _).2
    rintro ⟨x, _, _, hlt⟩
    rw [hcumX, hcumX] at hlt
    exact lt_irrefl _ hlt
  have hry : (candScan (histograms im).cntLineY mY (cumBgY im)
      (candScan (histograms im).cntLineX 1 (cumBgX im) []).deltas).res = 0 := by
    apply (candScan_res _ _ _ _).2
    rintro ⟨x, _, _, hlt⟩
    rw [hcumY, hcumY] at hlt
    exact lt_irrefl _ hlt
  constructor
  · have hs := detectScans_of_max im 1 mY hmX hmY
    have hm : modeDelta (candScan (histograms im).cntLineY mY (cumBgY im)
        (candScan (histograms im).cntLineX 1 (cumBgX im) []).deltas).deltas
        = some (120, (L.length : Int) - 1) := by
      rw [hdy]
      simp [modeDelta]
    rw [detectCenter_of_scans im _ _ _ hs hm, hrx, hry]
    simp only [scaleOf_default]
  · intro x hx
    simp only [columnCandidate, hmX]
    exact hcand x hx

set_option maxRecDepth 1000000 in
theorem gridRow_lines :
    (List.range gridRow.cols).filter (fun x : Nat => eqColor (gridRow.px 0 x) lineColor 10)
      = [10, 130, 250] := by
  decide

theorem gridRow_other (x : Nat) (_hx : x < gridRow.cols)
    (_h : eqColor (gridRow.px 0 x) lineColor 10 = false) :
    eqColor (gridRow.px 0 x) backgroundOuter 10 = false := by
  simp only [gridRow]
  split_ifs <;> decide

/-- C12, as stated, fails: on the one-row raster with line-coloured pixels exactly at the
columns 10, 130 and 250 (legend colour elsewhere) `detectCenter` returns the scale 1 with the
centre column 0, and column 0 is not a grid-line candidate. -/
theorem gridRow_center_not_candidate :
    gridRow.rows = 1 ∧
    (List.range gridRow.cols).filter (fun x : Nat => eqColor (gridRow.px 0 x) lineColor 10)
      = [10, 130, 250] ∧
    detectCenter gridRow = some ⟨0, 0, 1⟩ ∧
    columnCandidate gridRow 0 = false ∧
    columnCandidate gridRow 10 = true := by
  have h := oneRow_grid gridRow [10, 130, 250] rfl gridRow_lines (by simp) (by decide)
    gridRow_other
  refine ⟨rfl, gridRow_lines, h.1, ?_, ?_⟩
  · rw [h.2 0 (by decide)]; decide
  · rw [h.2 10 (by decide)]; decide

/-- C12, amended: on a one-row raster whose line-coloured columns are at least two, each 120
after the previous one, and whose other pixels match neither the line colour nor the outer
background, `detectCenter` returns the scale factor 1 and the centre `(0,0)`; the centre
column is a grid-line candidate only when column 0 is itself line-coloured. -/
theorem oneRow_grid_calibration (im : Image) (hrows : im.rows = 1)
    (hchain : ((List.range im.cols).filter
      (fun x : Nat => eqColor (im.px 0 x) lineColor 10)).Chain' (fun a b => b = a + 120))
    (hlen : 2 ≤ ((List.range im.cols).filter
      (fun x : Nat => eqColor (im.px 0 x) lineColor 10)).length)
    (hother : ∀ x : Nat, x < im.cols → eqColor (im.px 0 x) lineColor 10 = false →
      eqColor (im.px 0 x) backgroundOuter 10 = false) :
    ∃ c, detectCenter im = some c ∧ c.scaling = 1 ∧ c.centerX = 0 ∧ c.centerY = 0 ∧
      (columnCandidate im c.centerX = true ↔ eqColor (im.px 0 0) lineColor 10 = true) := by
  have h := oneRow_grid im _ hrows rfl hchain hlen hother
  have hcols : 0 < im.cols := by
    by_contra h0
    have : im.cols = 0 := by omega
    rw [this] at hlen
    simp at hlen
  refine ⟨_, h.1, rfl, rfl, rfl, ?_⟩
  have := h.2 0 hcols
  simp only [Nat.cast_zero] at this
  rw [this]

/-- Witness of the amended C12 on the one-row raster with lines at 10, 130 and 250. -/
theorem oneRow_grid_calibration_witness :
    ∃ c, detectCenter gridRow = some c ∧ c.scaling = 1 ∧ c.centerX = 0 ∧ c.centerY = 0 ∧
      (columnCandidate gridRow c.centerX = true ↔ eqColor (gridRow.px 0 0) lineColor 10 = true) :=
  oneRow_grid_calibration gridRow rfl (by rw [gridRow_lines]; simp)
    (by rw [gridRow_lines]; decide) gridRow_other

/-! ## The mode of the deltas on ties -/

theorem mapIncr_keys (D : List (Int × Int)) (k : Int) :
    ∀ e ∈ mapIncr D k, e.1 = k ∨ ∃ e' ∈ D, e'.1 = e.1 := by
  induction D with
  | nil =>
    intro e he
    simp only [mapIncr, List.mem_singleton] at he
    left; rw [he]
  | cons a t ih =>
    obtain ⟨k1, c⟩ := a
    intro e he
    unfold mapIncr at he
    split_ifs at he with h1 h2
    · rcases List.mem_cons.mp he with rfl | he
      · left; rfl
      · right; exact ⟨e, he, rfl⟩
    · rcases List.mem_cons.mp he with rfl | he
      · left; exact h2.symm
      · right; exact ⟨e, List.mem_cons_of_mem _ he, rfl⟩
    · rcases List.mem_cons.mp he with rfl | he
      · right; exact ⟨(k1, c), List.mem_cons_self _ _, rfl⟩
      · rcases ih e he with h | ⟨e', he', hk⟩
        · left; exact h
        · right; exact ⟨e', List.mem_cons_of_mem _ he', hk⟩

/-- The entries of the map stay in strictly increasing key order under `deltas[k]++`. -/
theorem mapIncr_sorted (D : List (Int × Int)) (k : Int)
    (h : D.Pairwise fun a b => a.1 < b.1) :
    (mapIncr D k).Pairwise fun a b => a.1 < b.1 := by
  induction D with
  | nil => simp [mapIncr]
  | cons a t ih =>
    obtain ⟨k1, c⟩ := a
    obtain ⟨hhead, htail⟩ := List.pairwise_cons.mp h
    unfold mapIncr
    split_ifs with h1 h2
    · refine List.pairwise_cons.mpr ⟨?_, h⟩
      intro e he
      rcases List.mem_cons.mp he with rfl | he
      · exact h1
      · exact lt_trans h1 (hhead e he)
    · exact List.pairwise_cons.mpr ⟨hhead, htail⟩
    · refine List.pairwise_cons.mpr ⟨?_, ih htail⟩
      intro e he
      rcases mapIncr_keys t k e he with hk | ⟨e', he', hk⟩
      · simp only
        omega
      · rw [← hk]
        exact hhead e' he'

theorem foldl_mapIncr_sorted (ds : List Int) :
    ∀ D : List (Int × Int), (D.Pairwise fun a b => a.1 < b.1) →
      (ds.foldl mapIncr D).Pairwise fun a b => a.1 < b.1 := by
  induction ds with
  | nil => intro D h; exact h
  | cons d ds ih => intro D h; exact ih _ (mapIncr_sorted D d h)

theorem detectDeltas_sorted (im : Image) (D : List (Int × Int))
    (hD : detectDeltas im = some D) : D.Pairwise fun a b => a.1 < b.1 := by
  unfold detectDeltas at hD
  cases hs : detectScans im with
  | none => simp [hs] at hD
  | some s =>
    obtain ⟨sx, sy⟩ := s
    simp only [hs, Option.map_some', Option.some.injEq] at hD
    subst hD
    obtain ⟨mX, mY, _, _, rfl, rfl⟩ := detectScans_some im sx sy hs
    rw [candScan_deltas, candScan_deltas]
    exact foldl_mapIncr_sorted _ _ (foldl_mapIncr_sorted _ _ List.Pairwise.nil)

/-- The mode loop keeps the first entry, in iteration order, among those of largest count. -/
theorem foldl_argmax_first (l : List (Int × Int)) :
    ∀ a : Int × Int,
      (l.foldl (fun m v => if v.2 > m.2 then v else m) a = a ∧ ∀ e ∈ l, e.2 ≤ a.2) ∨
      (∃ l1 l2, l = l1 ++ l.foldl (fun m v => if v.2 > m.2 then v else m) a :: l2 ∧
        a.2 < (l.foldl (fun m v => if v.2 > m.2 then v else m) a).2 ∧
        (∀ e ∈ l1, e.2 < (l.foldl (fun m v => if v.2 > m.2 then v else m) a).2) ∧
        (∀ e ∈ l2, e.2 ≤ (l.foldl (fun m v => if v.2 > m.2 then v else m) a).2)) := by
  induction l with
  | nil => intro a; left; simp
  | cons b l ih =>
    intro a
    rw [List.foldl_cons]
    by_cases hb : b.2 > a.2
    · rw [if_pos hb]
      rcases ih b with ⟨hr, hall⟩ | ⟨l1, l2, hl, hlt, h1, h2⟩
      · right
        refine ⟨[], l, by rw [hr]; rfl, by rw [hr]; exact hb, by simp, by rw [hr]; exact hall⟩
      · right
        refine ⟨b :: l1, l2, by rw [List.cons_append, ← hl], lt_trans hb hlt, ?_, h2⟩
        intro e he
        rcases List.mem_cons.mp he with rfl | he
        · exact hlt
        · exact h1 e he
    · rw [if_neg hb]
      rcases ih a with ⟨hr, hall⟩ | ⟨l1, l2, hl, hlt, h1, h2⟩
      · left
        refine ⟨hr, ?_⟩
        intro e he
        rcases List.mem_cons.mp he with rfl | he
        · exact not_lt.mp hb
        · exact hall e he
      · right
        refine ⟨b :: l1, l2, by rw [List.cons_append, ← hl], hlt, ?_, h2⟩
        intro e he
        rcases List.mem_cons.mp he with rfl | he
        · exact lt_of_le_of_lt (not_lt.mp hb) hlt
        · exact h1 e he

/-- On a map in increasing key order the mode loop returns, among the entries of largest
count, the one of smallest key. -/
theorem modeDelta_smallest (D : List (Int × Int)) (hne : D ≠ [])
    (hs : D.Pairwise fun a b => a.1 < b.1) :
    ∃ md, modeDelta D = some md ∧ md ∈ D ∧ (∀ e ∈ D, e.2 ≤ md.2) ∧
      ∀ e ∈ D, e.2 = md.2 → md.1 ≤ e.1 := by
  obtain ⟨md, hmd, hin, hmax⟩ := modeDelta_spec D hne
  refine ⟨md, hmd, hin, hmax, ?_⟩
  cases D with
  | nil => exact absurd rfl hne
  | cons first rest =>
    have hval : md = rest.foldl (fun m v => if v.2 > m.2 then v else m) first := by
      simp only [modeDelta, Option.some.injEq, List.foldl_cons, gt_iff_lt, lt_self_iff_false,
        if_false] at hmd
      exact hmd.symm
    obtain ⟨hhead, htail⟩ := List.pairwise_cons.mp hs
    intro e he heq
    rcases foldl_argmax_first rest first with ⟨hr, _⟩ | ⟨l1, l2, hl, _, h1, _⟩
    · rw [← hval] at hr
      rcases List.mem_cons.mp he with rfl | he
      · rw [hr]
      · rw [hr]; exact le_of_lt (hhead e he)
    · rw [← hval] at hl h1
      rcases List.mem_cons.mp he with rfl | he
      · -- the head has a smaller count than the mode
        exfalso
        have := (foldl_argmax_first rest e)
        rcases this with ⟨hr, _⟩ | ⟨_, _, _, hlt, _, _⟩
        · rw [← hval] at hr
          have hmem : md ∈ rest := by rw [hl]; simp
          have := hhead md hmem
          rw [hr] at this
          exact lt_irrefl _ this
        · rw [← hval] at hlt
          omega
      · rw [hl] at he htail
        rcases List.mem_append.mp he with h | h
        · have := h1 e h
          omega
        · rcases List.mem_cons.mp h with rfl | h
          · exact le_refl _
          · have hp := (List.pairwise_cons.mp (List.pairwise_append.mp htail).2.1).1
            exact le_of_lt (hp e h)

set_option maxRecDepth 100000 in
theorem tieRow_scans :
    detectScans tieRow = some (⟨0, 3, [(1, 1), (2, 1)]⟩, ⟨0, 0, [(1, 1), (2, 1)]⟩) := by
  decide

set_option maxRecDepth 100000 in
/-- C21, as stated, fails: on the one-row raster with line-coloured columns 0, 2 and 3 the
delta 2 is inserted first and the delta 1 second, both are counted once, and `detectCenter`
takes 1 as the mode (its scale is the `float` quotient of 1 by 120, not that of 2), not the
delta inserted first. -/
theorem tieRow_mode_not_first_inserted :
    gapsFrom (-1) ((List.range tieRow.cols).filter (fun x : Nat => columnCandidate tieRow x))
      = [2, 1] ∧
    gapsFrom (-1) ((List.range tieRow.rows).filter (fun y : Nat => rowCandidate tieRow y)) = [] ∧
    detectDeltas tieRow = some [(1, 1), (2, 1)] ∧
    modeDelta [(1, 1), (2, 1)] = some (1, 1) ∧
    (∃ c, detectCenter tieRow = some c ∧ c.scaling = scaleOf 1 ∧ c.scaling ≠ scaleOf 2) := by
  refine ⟨by decide, by decide, by decide, by decide, ?_⟩
  refine ⟨_, detectCenter_of_scans tieRow _ _ (1, 1) tieRow_scans (by decide), rfl, ?_⟩
  rw [show (⟨0, 0, scaleOf ((1 : Int), (1 : Int)).1⟩ : Calibration).scaling = scaleOf 1
    from rfl, scaleOf_one, scaleOf_two]
  norm_num

/-- C21, amended: when the map of deltas of an image is non-empty, `detectCenter` takes as the
mode a delta of highest frequency, and when several deltas share the highest frequency it takes
the smallest of them (the map is traversed in increasing key order), whatever the order of
insertion. -/
theorem detectCenter_mode_smallest (im : Image) (D : List (Int × Int))
    (hD : detectDeltas im = some D) (hne : D ≠ []) :
    ∃ c md, detectCenter im = some c ∧ c.scaling = scaleOf md.1 ∧ md ∈ D ∧
      (∀ e ∈ D, e.2 ≤ md.2) ∧ (∀ e ∈ D, e.2 = md.2 → md.1 ≤ e.1) := by
  have hsorted := detectDeltas_sorted im D hD
  unfold detectDeltas at hD
  cases hs : detectScans im with
  | none => simp [hs] at hD
  | some s =>
    obtain ⟨sx, sy⟩ := s
    simp only [hs, Option.map_some', Option.some.injEq] at hD
    subst hD
    obtain ⟨md, hmd, hin, hmax, hmin⟩ := modeDelta_smallest sy.deltas hne hsorted
    exact ⟨_, md, detectCenter_of_scans im sx sy md hs hmd, rfl, hin, hmax, hmin⟩

set_option maxRecDepth 100000 in
/-- Witness of the amended C21 on the one-row raster with line-coloured columns 0, 2 and 3. -/
theorem detectCenter_mode_smallest_witness :
    ∃ c md, detectCenter tieRow = some c ∧ c.scaling = scaleOf md.1 ∧
      md ∈ [((1 : Int), (1 : Int)), (2, 1)] ∧
      (∀ e ∈ [((1 : Int), (1 : Int)), (2, 1)], e.2 ≤ md.2) ∧
      (∀ e ∈ [((1 : Int), (1 : Int)), (2, 1)], e.2 = md.2 → md.1 ≤ e.1) :=
  detectCenter_mode_smallest tieRow [(1, 1), (2, 1)] (by decide) (by decide)

/-! ## The colours that leave the cleanup -/

/-- The four kinds of colour that `replacementColor` can return. -/
theorem replacementColor_cases (im stencil : Image) (x y : Int) :
    replacementColor im x y stencil = boundaryColor ∨
    replacementColor im x y stencil = transparent ∨
    isPaletteColor (replacementColor im x y stencil) = true ∨
    eqColor (replacementColor im x y stencil) black 2 = true := by
  unfold replacementColor
  by_cases hb : boundaryPoint im x y = true
  · left
    rw [if_pos hb]
  · rw [if_neg hb]
    by_cases hc : ((!isPaletteColor (im.px y x) && !isKeptBlack im x y stencil)
        || isBadRoadColor im x y stencil) = true
    · rw [if_pos hc]
      rcases neibScan_cases im x y with ⟨hr, _⟩ | ⟨l1, o, l2, _, hq, hr, _, _⟩
      · right; left
        simp only [neibColor, hr]
      · right; right; left
        simp only [neibColor, hr]
        simp only [qualifies, Bool.and_eq_true, decide_eq_true_eq] at hq
        exact hq.1.2
    · rw [if_neg hc]
      right; right
      cases hp : isPaletteColor (im.px y x)
      · right
        cases hk : isKeptBlack im x y stencil
        · simp [hp, hk] at hc
        · rw [isKeptBlack_eq, Bool.and_eq_true] at hk
          exact hk.1
      · left; rfl

/-- A colour of one of the four kinds is not within tolerance 10 of a colour that is far
from the boundary marker, from transparent, from black and from every palette entry. -/
theorem not_near_of_kind (r target : Vec4b)
    (hkind : r = boundaryColor ∨ r = transparent ∨ isPaletteColor r = true ∨
      eqColor r black 2 = true)
    (hbd : eqColor boundaryColor target 10 = false)
    (htr : eqColor transparent target 10 = false)
    (hpal : ∀ q ∈ palette, eqColor q target (2 + 10 - 1) = false)
    (hbl : eqColor black target (2 + 10 - 1) = false) :
    eqColor r target 10 = false := by
  rcases hkind with h | h | h | h
  · rw [h]; exact hbd
  · rw [h]; exact htr
  · rw [isPaletteColor_eq_any, List.any_eq_true] at h
    obtain ⟨q, hq, hqr⟩ := h
    by_contra hc
    have h11 := eqColor_trans q r target 2 10 hqr (by simpa using hc)
    rw [hpal q hq] at h11
    exact Bool.false_ne_true h11
  · by_contra hc
    rw [eqColor_symm] at h
    have h11 := eqColor_trans black r target 2 10 h (by simpa using hc)
    rw [hbl] at h11
    exact Bool.false_ne_true h11

/-- C22: for an in-bounds pixel the colour returned by `replacementColor` is the
boundary-marker colour `(128,0,0,255)`, the fully transparent colour `(0,0,0,0)`, a palette
colour, or a colour within the tight tolerance of black `(0,0,0,255)`; hence it is never
within tolerance 10 of the outer background, of the inner background or of the line colour. -/
theorem replacementColor_kinds (im stencil : Image) (x y : Int)
    (_hin : inBounds im x y = true) :
    (replacementColor im x y stencil = boundaryColor ∨
      replacementColor im x y stencil = transparent ∨
      isPaletteColor (replacementColor im x y stencil) = true ∨
      eqColor (replacementColor im x y stencil) black 2 = true) ∧
    (eqColor (replacementColor im x y stencil) backgroundOuter 10 = false ∧
      eqColor (replacementColor im x y stencil) backgroundInner 10 = false ∧
      eqColor (replacementColor im x y stencil) lineColor 10 = false) ∧
    boundaryColor = ⟨128, 0, 0, 255⟩ ∧ transparent = ⟨0, 0, 0, 0⟩ ∧ black = ⟨0, 0, 0, 255⟩ := by
  have h := replacementColor_cases im stencil x y
  refine ⟨h, ⟨?_, ?_, ?_⟩, rfl, rfl, rfl⟩
  · exact not_near_of_kind _ _ h (by decide) (by decide) (by decide) (by decide)
  · exact not_near_of_kind _ _ h (by decide) (by decide) (by decide) (by decide)
  · exact not_near_of_kind _ _ h (by decide) (by decide) (by decide) (by decide)

/-- Witness of C22 at the centre of the 3+3 patch, a legend pixel that is kept. -/
theorem replacementColor_kinds_witness :
    isPaletteColor (replacementColor patch3 2 2 patch3) = true ∧
    eqColor (replacementColor patch3 2 2 patch3) backgroundOuter 10 = false :=
  ⟨by decide, (replacementColor_kinds patch3 patch3 2 2 (by decide)).2.1.1⟩

/-! ## Boundary test on the edge of the raster -/

/-- A pixel within tolerance 10 of the outer background, or fully transparent, is not within
tolerance 10 of the inner background. -/
theorem outer_not_inner (p : Vec4b)
    (h : eqColor p backgroundOuter 10 = true ∨ p = transparent) :
    eqColor p backgroundInner 10 = false := by
  rcases h with h | h
  · by_contra hc
    rw [eqColor_symm] at h
    have h19 := eqColor_trans backgroundOuter p backgroundInner 10 10 h (by simpa using hc)
    exact absurd h19 (by decide)
  · rw [h]; decide

theorem not_outerPos_and_innerPos (im : Image) (cx cy : Int) :
    ¬ (outerPos im cx cy = true ∧ innerPos im cx cy = true) := by
  rintro ⟨ho, hi⟩
  simp only [innerPos, Bool.and_eq_true] at hi
  simp only [outerPos, hi.1, Bool.not_true, Bool.false_or, Bool.or_eq_true,
    decide_eq_true_eq] at ho
  have := outer_not_inner (im.px cy cx) (ho.symm)
  rw [this] at hi
  exact Bool.false_ne_true hi.2

/-- On the first or last column, or the first or last row, at least 10 window positions are
out of bounds. -/
theorem outOfBounds_on_edge (im : Image) (x y : Int)
    (hedge : x = 0 ∨ x = (im.cols : Int) - 1 ∨ y = 0 ∨ y = (im.rows : Int) - 1) :
    10 ≤ win5.countP fun o => !inBounds im (x + o.1) (y + o.2) := by
  have hL : win5.countP (fun o => decide (o.1 < 0)) = 10 := by decide
  have hR : win5.countP (fun o => decide (0 < o.1)) = 10 := by decide
  have hT : win5.countP (fun o => decide (o.2 < 0)) = 10 := by decide
  have hB : win5.countP (fun o => decide (0 < o.2)) = 10 := by decide
  rcases hedge with h | h | h | h
  · rw [← hL]
    apply List.countP_mono_left
    intro o _ ho
    simp only [decide_eq_true_eq] at ho
    simp only [inBounds, Bool.not_eq_true', Bool.and_eq_false_iff, decide_eq_false_iff_not]
    left; left; left
    omega
  · rw [← hR]
    apply List.countP_mono_left
    intro o _ ho
    simp only [decide_eq_true_eq] at ho
    simp only [inBounds, Bool.not_eq_true', Bool.and_eq_false_iff, decide_eq_false_iff_not]
    left; left; right
    omega
  · rw [← hT]
    apply List.countP_mono_left
    intro o _ ho
    simp only [decide_eq_true_eq] at ho
    simp only [inBounds, Bool.not_eq_true', Bool.and_eq_false_iff, decide_eq_false_iff_not]
    left; right
    omega
  · rw [← hB]
    apply List.countP_mono_left
    intro o _ ho
    simp only [decide_eq_true_eq] at ho
    simp only [inBounds, Bool.not_eq_true', Bool.and_eq_false_iff, decide_eq_false_iff_not]
    right
    omega

/-- C23: for a pixel in the first or last column or the first or last row of the raster, at
least 10 of the 25 window positions are out of bounds and count as outer, so `cntOuter > 5`
holds and `boundaryPoint` is true exactly when more than 5 in-bounds window pixels are within
tolerance 10 of the inner background; no position is counted in both `cntOuter` and
`cntInner`. -/
theorem boundaryPoint_on_edge (im : Image) (x y : Int) (_hin : inBounds im x y = true)
    (hedge : x = 0 ∨ x = (im.cols : Int) - 1 ∨ y = 0 ∨ y = (im.rows : Int) - 1) :
    (10 ≤ win5.countP fun o => !inBounds im (x + o.1) (y + o.2)) ∧
    5 < outerCount im x y ∧
    (boundaryCounts im x y).1 > 5 ∧
    (boundaryPoint im x y = true ↔ 5 < innerCount im x y) ∧
    (∀ cx cy : Int, ¬ (outerPos im cx cy = true ∧ innerPos im cx cy = true)) ∧
    (∀ (st : Int × Int) (dy dx : Int),
      ¬ ((boundaryStep im x y st dy dx).1 = st.1 + 1 ∧
         (boundaryStep im x y st dy dx).2 = st.2 + 1)) := by
  have h10 := outOfBounds_on_edge im x y hedge
  have hout : 10 ≤ outerCount im x y := by
    refine le_trans h10 ?_
    unfold outerCount
    apply List.countP_mono_left
    intro o _ ho
    simp only [outerPos, Bool.or_eq_true]
    left; left
    exact ho
  refine ⟨h10, by omega, ?_, ?_, not_outerPos_and_innerPos im, ?_⟩
  · rw [boundaryCounts_eq]
    simp only [gt_iff_lt]
    omega
  · rw [boundaryPoint_eq]
    have : 5 < outerCount im x y := by omega
    simp [this]
  · intro st dy dx
    rw [boundaryStep_eq]
    rintro ⟨h1, h2⟩
    apply not_outerPos_and_innerPos im (x + dx) (y + dy)
    constructor
    · by_contra hc
      simp only [hc] at h1
      simp at h1
    · by_contra hc
      simp only [hc] at h2
      simp at h2

/-- Witness of C23 at the corner `(0,0)` of the 6+6 patch. -/
theorem boundaryPoint_on_edge_witness :
    5 < outerCount patch6 0 0 ∧ (boundaryPoint patch6 0 0 = true ↔ 5 < innerCount patch6 0 0) :=
  let h := boundaryPoint_on_edge patch6 0 0 (by decide) (Or.inl rfl)
  ⟨h.2.1, h.2.2.2.1⟩

end Radarmap
